import Mathlib

/-!
Verification of an iterative number-theoretic transform (NTT) implementation.

The program operates on `u64` arrays in place.  We embed it shallowly:
`u64` values are natural numbers, every `u64` arithmetic operation wraps
explicitly modulo `2 ^ 64`, and fallible operations (indexing, which panics
out of bounds in the source, and `assert!`) return `Option`.
-/

set_option maxHeartbeats 1000000
set_option maxRecDepth 4000

def MODULUS : Nat := 998244353

def PRIMITIVE_ROOT : Nat := 3

/-- The wrap-around modulus of `u64` arithmetic. -/
def U64SIZE : Nat := 2 ^ 64

/-- `u64` multiplication (wrapping). -/
def mul64 (x y : Nat) : Nat := x * y % U64SIZE

/-- `u64` addition (wrapping). -/
def add64 (x y : Nat) : Nat := (x + y) % U64SIZE

/-- `u64` subtraction (wrapping); for `y ≤ 2 ^ 64` this is `(x + 2^64 - y) % 2^64`. -/
def sub64 (x y : Nat) : Nat := (x + (U64SIZE - y)) % U64SIZE

/-- The loop of `power_mod`, with explicit fuel (the loop runs at most
`log2 exp + 1` times, so any fuel `≥ exp` is enough). -/
def powerModAux : Nat → Nat → Nat → Nat → Nat → Nat
  | 0, result, _, _, _ => result
  | fuel + 1, result, base, exp, modulus =>
    if exp = 0 then result
    else
      powerModAux fuel (if exp % 2 = 1 then mul64 result base % modulus else result)
        (mul64 base base % modulus) (exp / 2) modulus

/-- `power_mod(base, exp, modulus)`: binary exponentiation, as in the source. -/
def powerMod (base exp modulus : Nat) : Nat :=
  powerModAux exp 1 (base % modulus) exp modulus

/-- The loop `while m > 1 { m >>= 1; h += 1 }` computing `h = ⌊log2 n⌋`,
with explicit fuel (any fuel `≥ n` is enough). -/
def log2Aux : Nat → Nat → Nat → Nat
  | 0, _, h => h
  | fuel + 1, m, h => if 1 < m then log2Aux fuel (m >>> 1) (h + 1) else h

/-- The `h` computed at the top of `ntt` and `alt_ntt`. -/
def floorLog2 (n : Nat) : Nat := log2Aux n n 0

/-- `bit_reverse(idx_in, log2n)` from the source: reverse the low `log2n` bits. -/
def bit_reverse (idx_in log2n : Nat) : Nat :=
  ((List.range log2n).foldl
    (fun (st : Nat × Nat) _ => (st.1 >>> 1, st.2 <<< 1 ||| (st.1 &&& 1)))
    (idx_in, 0)).2

/-- The loop body of `bit_reverse`. -/
def brevStep (st : Nat × Nat) (_ : Nat) : Nat × Nat :=
  (st.1 >>> 1, st.2 <<< 1 ||| (st.1 &&& 1))

/-- `slice::swap(i, j)`: panics (returns `none`) when an index is out of bounds. -/
def listSwap (a : List Nat) (i j : Nat) : Option (List Nat) := do
  let x ← a[i]?
  let y ← a[j]?
  pure ((a.set i y).set j x)

/-- Checked indexed write `a[i] = v` (panics out of bounds). -/
def listWrite (a : List Nat) (i : Nat) (v : Nat) : Option (List Nat) :=
  if i < a.length then some (a.set i v) else none

/-- One iteration of the combined rev-building / swapping loop of the source:
`rev[i] = rev[i >> 1] >> 1 | (n >> 1 if i odd); if i < rev[i] { a.swap(i, rev[i]) }`.
State: the `rev` buffer and the array. -/
def revSwapStep (n : Nat) (st : List Nat × List Nat) (i : Nat) :
    Option (List Nat × List Nat) := do
  let prev ← st.1[i >>> 1]?
  let rv := prev >>> 1 ||| (if i &&& 1 = 1 then n >>> 1 else 0)
  let rev ← listWrite st.1 i rv
  let a ← if i < rv then listSwap st.2 i rv else pure st.2
  pure (rev, a)

/-- The bit-reversal permutation pass shared by `ntt` and `alt_ntt`
(source lines 36–42 and 76–82). -/
def bitrevSwapPass (a : List Nat) (n : Nat) : Option (List Nat) :=
  ((List.range n).foldlM (revSwapStep n) (List.replicate n 0, a)).map (fun st => st.2)

/-- The recurrence of source line 38, `rev[i] = rev[i>>1] >> 1 | (n>>1 if i odd)`,
as a pure function of `i` (fuel `≥ i` is enough since the recursion halves `i`). -/
def revRecAux (n : Nat) : Nat → Nat → Nat
  | _, 0 => 0
  | 0, _ + 1 => 0
  | fuel + 1, i + 1 =>
    revRecAux n fuel ((i + 1) >>> 1) >>> 1 ||| (if (i + 1) &&& 1 = 1 then n >>> 1 else 0)

/-- The incremental bit-reversal mapping built inside the transforms. -/
def revRec (n i : Nat) : Nat := revRecAux n i i

/-- One butterfly of the decimation-in-time stage:
`u = a[k+j]; t = a[k+j+m] * w % MODULUS;
 a[k+j] = (u + t) % MODULUS; a[k+j+m] = (u + MODULUS - t) % MODULUS`. -/
def butterflyStep (m w j : Nat) (a : List Nat) (k : Nat) : Option (List Nat) := do
  let u ← a[k + j]?
  let tv ← a[k + j + m]?
  let t := mul64 tv w % MODULUS
  let a1 ← listWrite a (k + j) (add64 u t % MODULUS)
  listWrite a1 (k + j + m) (sub64 (add64 u MODULUS) t % MODULUS)

/-- `(0..n).step_by(mh)` as a list. -/
def stepList (n mh : Nat) : List Nat := List.range' 0 ((n + mh - 1) / mh) mh

/-- The body of `for j in 0..m` in `ntt`: run the butterflies of column `j`
over every block, then advance the twiddle `w = w * base % MODULUS`. -/
def nttStageJ (n mh m base : Nat) (st : List Nat × Nat) (j : Nat) :
    Option (List Nat × Nat) := do
  let a ← (stepList n mh).foldlM (butterflyStep m st.2 j) st.1
  pure (a, mul64 st.2 base % MODULUS)

/-- One stage (`mh = 1 << i`) of the iterative `ntt`. -/
def nttStage (a : List Nat) (n mh m base : Nat) : Option (List Nat) :=
  ((List.range m).foldlM (nttStageJ n mh m base) (a, 1)).map (fun st => st.1)

/-- The stage loop `for i in 1..=h` of `ntt`. -/
def nttLoops (a : List Nat) (n h root : Nat) : Option (List Nat) :=
  (List.range h).foldlM
    (fun a i =>
      nttStage a n (1 <<< (i + 1)) (1 <<< (i + 1) >>> 1)
        (powerMod root ((MODULUS - 1) / (1 <<< (i + 1))) MODULUS))
    a

/-- `ntt(a, n, primitive_root)` from the source (decimation in time). -/
def ntt (a : List Nat) (n root : Nat) : Option (List Nat) := do
  let h := floorLog2 n
  let a ← bitrevSwapPass a n
  nttLoops a n h root

/-- `intt(a, n, primitive_root)` from the source: forward transform with the
inverse root, then scale every element by `n⁻¹ mod MODULUS`. -/
def intt (a : List Nat) (n root : Nat) : Option (List Nat) := do
  let nInv := powerMod n (MODULUS - 2) MODULUS
  let b ← ntt a n (powerMod root (MODULUS - 2) MODULUS)
  pure (b.map (fun x => mul64 x nInv % MODULUS))

/-- `usize::is_power_of_two`. -/
def isPow2 (n : Nat) : Bool := n != 0 && n &&& (n - 1) == 0

/-- One butterfly of the decimation-in-frequency stage of `alt_ntt`:
`u = a[s]; d = a[s+m]; a[s] = (u + d) % MODULUS;
 a[s+m] = w * ((u + MODULUS - d) % MODULUS) % MODULUS; w = w * base % MODULUS`. -/
def altButterfly (m base : Nat) (st : List Nat × Nat) (s : Nat) :
    Option (List Nat × Nat) := do
  let u ← st.1[s]?
  let d ← st.1[s + m]?
  let a1 ← listWrite st.1 s (add64 u d % MODULUS)
  let a2 ← listWrite a1 (s + m) (mul64 st.2 (sub64 (add64 u MODULUS) d % MODULUS) % MODULUS)
  pure (a2, mul64 st.2 base % MODULUS)

/-- One block (`for s in r..r+m`) of an `alt_ntt` stage, with `w` starting at 1. -/
def altBlock (m base : Nat) (a : List Nat) (r : Nat) : Option (List Nat) := do
  let st ← (List.range' r m 1).foldlM (altButterfly m base) (a, 1)
  pure st.1

/-- One stage of `alt_ntt` (`r` running over block starts `0, 2m, 4m, …  < n`). -/
def altStagePass (a : List Nat) (n m base : Nat) : Option (List Nat) :=
  (List.range' 0 ((n + 2 * m - 1) / (2 * m)) (2 * m)).foldlM (altBlock m base) a

/-- The `while m > 2` stage loop of `alt_ntt`, with explicit fuel
(the loop halves `m`, so fuel `≥ m` is enough). -/
def altWhileAux : Nat → List Nat → Nat → Nat → Nat → Option (List Nat × Nat)
  | 0, a, _, m, _ => pure (a, m)
  | fuel + 1, a, n, m, base =>
    if 2 < m then do
      let m2 := m >>> 1
      let a2 ← altStagePass a n m2 base
      altWhileAux fuel a2 n m2 (mul64 base base % MODULUS)
    else pure (a, m)

/-- The terminal 2-point stage of `alt_ntt` (its `if m > 1` block). -/
def altFinalStep (a : List Nat) (r : Nat) : Option (List Nat) := do
  let u ← a[r]?
  let d ← a[r + 1]?
  let a1 ← listWrite a r (add64 u d % MODULUS)
  listWrite a1 (r + 1) (sub64 (add64 u MODULUS) d % MODULUS)

/-- `alt_ntt(a, n, primitive_root)` from the source: the bit-reversal pass, the
`assert!(n.is_power_of_two())` (a failed assert panics, i.e. `none`), the
decimation-in-frequency stages, and the terminal 2-point stage. -/
def altNtt (a : List Nat) (n root : Nat) : Option (List Nat) := do
  let a ← bitrevSwapPass a n
  let nl := a.length
  if isPow2 nl then
    let base := powerMod root ((MODULUS - 1) / nl) MODULUS
    let st ← altWhileAux nl a nl nl base
    if 1 < st.2 then
      (List.range' 0 ((nl + 1) / 2) 2).foldlM altFinalStep st.1
    else pure st.1
  else none

/-- `res.push(vec0[i] * vec1[i])` from the convolution driver in `main`. -/
def pointwiseStep (fa fb : List Nat) (res : List Nat) (i : Nat) : Option (List Nat) := do
  let x ← fa[i]?
  let y ← fb[i]?
  pure (res ++ [mul64 x y])

/-- The convolution driver of `main` (second block): forward-transform both
inputs, multiply pointwise (no reduction, exactly as in the source), inverse
transform. -/
def convolveViaNtt (a b : List Nat) (n : Nat) : Option (List Nat) := do
  let fa ← ntt a n PRIMITIVE_ROOT
  let fb ← ntt b n PRIMITIVE_ROOT
  let res ← (List.range n).foldlM (pointwiseStep fa fb) []
  intt res n PRIMITIVE_ROOT

/-- Schoolbook convolution coefficient, following the spec's words:
coefficient `k` of the product of the polynomials with coefficient lists
`a` and `b` (absent entries read as 0). -/
def convCoeff (a b : List Nat) (k : Nat) : Nat :=
  ∑ j ∈ Finset.range (k + 1), a.getD j 0 * b.getD (k - j) 0

/-- The value written by a butterfly at the low position `i` of a pair
(reads the pre-stage list). -/
def bflyAdd (a : List Nat) (m w i : Nat) : Nat :=
  add64 (a.getD i 0) (mul64 (a.getD (i + m) 0) w % MODULUS) % MODULUS

/-- The value written by a butterfly at the high position `i` of a pair
(reads the pre-stage list). -/
def bflySub (a : List Nat) (m w i : Nat) : Nat :=
  sub64 (add64 (a.getD (i - m) 0) MODULUS) (mul64 (a.getD i 0) w % MODULUS) % MODULUS

/-- The twiddle value after `j` updates `w = w * base % MODULUS` starting from 1. -/
def wpow (base : Nat) : Nat → Nat
  | 0 => 1
  | j + 1 => mul64 (wpow base j) base % MODULUS

/-- The value at position `i` after one full decimation-in-time stage applied
to `a` (block width `mh = 2 * m`). -/
def colVal (a : List Nat) (mh m base i : Nat) : Nat :=
  if i % mh < m then bflyAdd a m (wpow base (i % mh)) i
  else bflySub a m (wpow base (i % mh - m)) i

abbrev F : Type := ZMod MODULUS

/-- The intended contents of the array after the bit-reversal pass and the
first `s` butterfly stages of `ntt` on an original input `x` (as field
elements): position `i` holds the size-`2^s` DFT of the stride-`2^(h-s)`
subsequence of `x` selected by the bit-reversed block index. -/
def specVal (h s : Nat) (r : F) (x : Nat → F) (i : Nat) : F :=
  ∑ t ∈ Finset.range (2 ^ s),
    x (t * 2 ^ (h - s) + bit_reverse (i / 2 ^ s) (h - s)) *
      (r ^ ((MODULUS - 1) / 2 ^ s)) ^ (i % 2 ^ s * t)

/-- The discrete Fourier transform of `x` of size `n` at root `ω`, index `i`. -/
def dftF (n : Nat) (ω : F) (x : Nat → F) (i : Nat) : F :=
  ∑ j ∈ Finset.range n, x j * ω ^ (i * j)
/-! ### Basic facts about the wrapped `u64` arithmetic -/

theorem MODULUS_pos : 0 < MODULUS := by decide

theorem mul64_eq {x y : Nat} (h : x * y < U64SIZE) : mul64 x y = x * y :=
  Nat.mod_eq_of_lt h

theorem add64_eq {x y : Nat} (h : x + y < U64SIZE) : add64 x y = x + y :=
  Nat.mod_eq_of_lt h

theorem sub64_eq {x y : Nat} (hyx : y ≤ x) (hx : x < U64SIZE) : sub64 x y = x - y := by
  unfold sub64
  have hy : y ≤ U64SIZE := le_of_lt (lt_of_le_of_lt hyx hx)
  have h1 : x + (U64SIZE - y) = (x - y) + U64SIZE := by omega
  rw [h1, Nat.add_mod_right, Nat.mod_eq_of_lt (by omega)]

/-! ### Disjoint `lor` is addition -/

theorem lor_mul_pow_two {a b k : Nat} (hb : b < 2 ^ k) :
    2 ^ k * a ||| b = 2 ^ k * a + b := by
  apply Nat.eq_of_testBit_eq
  intro i
  rw [Nat.testBit_or, Nat.testBit_mul_pow_two_add a hb i]
  rcases lt_or_ge i k with hik | hik
  · rw [if_pos hik]
    have hz : (2 ^ k * a).testBit i = false := by
      have h := Nat.testBit_mul_pow_two_add a (Nat.two_pow_pos k) i
      rw [Nat.add_zero] at h
      rw [h, if_pos hik]
      exact Nat.zero_testBit i
    rw [hz, Bool.false_or]
  · rw [if_neg (Nat.not_lt.mpr hik)]
    have hbf : b.testBit i = false :=
      Nat.testBit_lt_two_pow (lt_of_lt_of_le hb (Nat.pow_le_pow_right (by omega) hik))
    have hz : (2 ^ k * a).testBit i = a.testBit (i - k) := by
      have h := Nat.testBit_mul_pow_two_add a (Nat.two_pow_pos k) i
      rw [Nat.add_zero] at h
      rw [h, if_neg (Nat.not_lt.mpr hik)]
    rw [hz, hbf, Bool.or_false]

theorem lor_two_pow_of_lt {a k : Nat} (ha : a < 2 ^ k) : a ||| 2 ^ k = a + 2 ^ k := by
  rw [Nat.lor_comm]
  have := lor_mul_pow_two (a := 1) (b := a) (k := k) ha
  simpa [Nat.mul_one, Nat.add_comm] using this

theorem lor_two_mul_bit {a b : Nat} (hb : b < 2) : 2 * a ||| b = 2 * a + b := by
  have := lor_mul_pow_two (a := a) (b := b) (k := 1) (by simpa using hb)
  simpa [Nat.pow_one] using this

/-! ### Correctness of `power_mod` -/

theorem powerModAux_correct :
    ∀ fuel exp result base m, exp ≤ fuel → 2 ≤ m → m ≤ 2 ^ 32 →
      result < m → base < m →
      powerModAux fuel result base exp m = result * base ^ exp % m := by
  intro fuel
  induction fuel with
  | zero =>
    intro exp result base m hle hm hm32 hr hb
    have : exp = 0 := Nat.le_zero.mp hle
    subst this
    simp [powerModAux, Nat.mod_eq_of_lt hr]
  | succ fuel ih =>
    intro exp result base m hle hm hm32 hr hb
    by_cases hexp : exp = 0
    · subst hexp
      simp [powerModAux, Nat.mod_eq_of_lt hr]
    · have hsq : base * base < U64SIZE := by
        have h1 : base ≤ 2 ^ 32 - 1 := by omega
        have : base * base ≤ (2 ^ 32 - 1) * (2 ^ 32 - 1) := Nat.mul_le_mul h1 h1
        unfold U64SIZE; omega
      have hrb : result * base < U64SIZE := by
        have h1 : result ≤ 2 ^ 32 - 1 := by omega
        have h2 : base ≤ 2 ^ 32 - 1 := by omega
        have : result * base ≤ (2 ^ 32 - 1) * (2 ^ 32 - 1) := Nat.mul_le_mul h1 h2
        unfold U64SIZE; omega
      have hstep : powerModAux (fuel + 1) result base exp m =
          powerModAux fuel (if exp % 2 = 1 then mul64 result base % m else result)
            (mul64 base base % m) (exp / 2) m := by
        simp [powerModAux, hexp]
      rw [hstep, mul64_eq hsq]
      have hle2 : exp / 2 ≤ fuel := by omega
      have hbase' : base * base % m < m := Nat.mod_lt _ (by omega)
      have hres' : (if exp % 2 = 1 then mul64 result base % m else result) < m := by
        by_cases h2 : exp % 2 = 1 <;> simp [h2, Nat.mod_lt _ (show 0 < m by omega), hr]
      rw [ih (exp / 2) _ _ m hle2 hm hm32 hres' hbase']
      by_cases h2 : exp % 2 = 1
      · rw [if_pos h2, mul64_eq hrb]
        have hpow : base ^ exp = base * (base * base) ^ (exp / 2) := by
          conv_lhs => rw [show exp = 2 * (exp / 2) + 1 by omega]
          rw [pow_succ, pow_mul, pow_two, mul_comm]
        rw [hpow]
        have e1 : result * base % m ≡ result * base [MOD m] := Nat.mod_modEq _ _
        have e2 : base * base % m ≡ base * base [MOD m] := Nat.mod_modEq _ _
        have e3 := e1.mul (e2.pow (exp / 2))
        have e4 : result * base * (base * base) ^ (exp / 2) =
            result * (base * (base * base) ^ (exp / 2)) := by ring
        exact e3.trans (e4 ▸ Nat.ModEq.refl _)
      · rw [if_neg h2]
        have hpow : base ^ exp = (base * base) ^ (exp / 2) := by
          conv_lhs => rw [show exp = 2 * (exp / 2) by omega]
          rw [pow_mul, pow_two]
        rw [hpow]
        have e2 : base * base % m ≡ base * base [MOD m] := Nat.mod_modEq _ _
        exact (Nat.ModEq.refl result).mul (e2.pow (exp / 2))

theorem powerMod_correct {m : Nat} (b e : Nat) (hm : 2 ≤ m) (hm32 : m ≤ 2 ^ 32) :
    powerMod b e m = b ^ e % m := by
  unfold powerMod
  rw [powerModAux_correct e e 1 (b % m) m (le_refl e) hm hm32 (by omega)
    (Nat.mod_lt _ (by omega))]
  rw [Nat.one_mul, ← Nat.pow_mod]

theorem powerMod_lt {m : Nat} (b e : Nat) (hm : 2 ≤ m) (hm32 : m ≤ 2 ^ 32) :
    powerMod b e m < m := by
  rw [powerMod_correct b e hm hm32]
  exact Nat.mod_lt _ (by omega)

theorem MODULUS_le : MODULUS ≤ 2 ^ 32 := by decide

theorem MODULUS_two_le : 2 ≤ MODULUS := by decide

/-! ### The reference bit reversal `bit_reverse` -/

theorem brevStep_fst (st : Nat × Nat) (e : Nat) : (brevStep st e).1 = st.1 >>> 1 := rfl

theorem brevStep_snd (st : Nat × Nat) (e : Nat) :
    (brevStep st e).2 = st.2 <<< 1 ||| (st.1 &&& 1) := rfl

theorem bit_reverse_eq_foldl (x h : Nat) :
    bit_reverse x h = ((List.range h).foldl brevStep (x, 0)).2 := rfl

theorem brev_foldl_fst (x c h : Nat) :
    ((List.range h).foldl brevStep (x, c)).1 = x >>> h := by
  induction h generalizing c with
  | zero => simp [Nat.shiftRight_zero]
  | succ h ih =>
    rw [List.range_succ, List.foldl_append, List.foldl_cons, List.foldl_nil,
      brevStep_fst, ih c, Nat.shiftRight_succ]
    rfl

theorem bit_reverse_succ (x h : Nat) :
    bit_reverse x (h + 1) = 2 * bit_reverse x h + x >>> h % 2 := by
  rw [bit_reverse_eq_foldl, List.range_succ, List.foldl_append, List.foldl_cons,
    List.foldl_nil, brevStep_snd, brev_foldl_fst, ← bit_reverse_eq_foldl,
    Nat.and_one_is_mod, Nat.shiftLeft_eq, Nat.pow_one, Nat.mul_comm (bit_reverse x h) 2]
  exact lor_two_mul_bit (Nat.mod_lt _ (by omega))

theorem bit_reverse_zero_left (h : Nat) : bit_reverse 0 h = 0 := by
  induction h with
  | zero => rfl
  | succ h ih => rw [bit_reverse_succ, ih, Nat.zero_shiftRight]

theorem bit_reverse_lt (x h : Nat) : bit_reverse x h < 2 ^ h := by
  induction h with
  | zero => simp [bit_reverse]
  | succ h ih =>
    rw [bit_reverse_succ]
    have h2 : x >>> h % 2 < 2 := Nat.mod_lt _ (by omega)
    have hp : 2 ^ (h + 1) = 2 * 2 ^ h := by rw [Nat.pow_succ]; ring
    omega

theorem bit_reverse_succ_low (x h : Nat) :
    bit_reverse x (h + 1) = bit_reverse (x / 2) h + x % 2 * 2 ^ h := by
  induction h generalizing x with
  | zero =>
    rw [bit_reverse_succ]
    have h0 : ∀ y, bit_reverse y 0 = 0 := fun _ => rfl
    rw [h0, h0, Nat.shiftRight_zero, Nat.pow_zero]
    omega
  | succ h ih =>
    rw [bit_reverse_succ, ih x, bit_reverse_succ (x / 2) h]
    have hshift : x >>> (h + 1) = (x / 2) >>> h := by
      rw [show h + 1 = 1 + h by omega, Nat.shiftRight_add, Nat.shiftRight_one]
    rw [hshift]
    have hp : 2 ^ (h + 1) = 2 * 2 ^ h := by rw [Nat.pow_succ]; ring
    have hsd : (x / 2) >>> h = x / 2 / 2 ^ h := Nat.shiftRight_eq_div_pow _ _
    rw [hsd, hp]
    ring

theorem bit_reverse_mod (h : Nat) : ∀ x, bit_reverse x h = bit_reverse (x % 2 ^ h) h := by
  induction h with
  | zero => intro x; rfl
  | succ h ih =>
    intro x
    have h1 : x % 2 ^ (h + 1) / 2 = x / 2 % 2 ^ h := by
      rw [show (2:Nat) ^ (h + 1) = 2 * 2 ^ h by rw [Nat.pow_succ]; ring]
      exact Nat.mod_mul_right_div_self x 2 (2 ^ h)
    have h2 : x % 2 ^ (h + 1) % 2 = x % 2 := by
      apply Nat.mod_mod_of_dvd
      exact Dvd.intro_left (2 ^ h) (by rw [Nat.pow_succ])
    rw [bit_reverse_succ_low, bit_reverse_succ_low (x % 2 ^ (h + 1)), h1, h2, ih (x / 2)]

theorem bit_reverse_involution (h : Nat) :
    ∀ x, x < 2 ^ h → bit_reverse (bit_reverse x h) h = x := by
  induction h with
  | zero =>
    intro x hx
    interval_cases x
    rfl
  | succ h ih =>
    intro x hx
    have hq : x / 2 < 2 ^ h := by
      have : 2 ^ (h + 1) = 2 * 2 ^ h := by rw [Nat.pow_succ]; ring
      omega
    have hbl : bit_reverse (x / 2) h < 2 ^ h := bit_reverse_lt _ _
    rw [bit_reverse_succ_low x h]
    set z := bit_reverse (x / 2) h + x % 2 * 2 ^ h with hz
    rw [bit_reverse_succ z h]
    have hzh : z >>> h % 2 = x % 2 := by
      rw [Nat.shiftRight_eq_div_pow]
      have hdz : z / 2 ^ h = x % 2 := by
        rw [hz, Nat.add_mul_div_right _ _ (Nat.two_pow_pos h),
          Nat.div_eq_of_lt hbl, Nat.zero_add]
      rw [hdz]
      omega
    have hzm : z % 2 ^ h = bit_reverse (x / 2) h := by
      rw [hz, Nat.add_mul_mod_self_right, Nat.mod_eq_of_lt hbl]
    rw [bit_reverse_mod h z, hzm, ih _ hq, hzh]
    omega

/-! ### The incremental recurrence `revRec` -/

theorem revRecAux_zero (n fuel : Nat) : revRecAux n fuel 0 = 0 := by
  cases fuel <;> rfl

theorem revRecAux_fuel_irrel (n : Nat) :
    ∀ i f1 f2, i ≤ f1 → i ≤ f2 → revRecAux n f1 i = revRecAux n f2 i := by
  intro i
  induction i using Nat.strong_induction_on with
  | _ i ih =>
    intro f1 f2 h1 h2
    match i, f1, f2 with
    | 0, f1, f2 => rw [revRecAux_zero, revRecAux_zero]
    | i + 1, g1 + 1, g2 + 1 =>
      show revRecAux n g1 ((i + 1) >>> 1) >>> 1 ||| _ =
        revRecAux n g2 ((i + 1) >>> 1) >>> 1 ||| _
      have hlt : (i + 1) >>> 1 < i + 1 := by
        rw [Nat.shiftRight_one]
        omega
      have hle1 : (i + 1) >>> 1 ≤ g1 := by
        rw [Nat.shiftRight_one]
        omega
      have hle2 : (i + 1) >>> 1 ≤ g2 := by
        rw [Nat.shiftRight_one]
        omega
      rw [ih _ hlt g1 g2 hle1 hle2]

theorem revRec_succ_unfold (n i : Nat) :
    revRec n (i + 1) =
      revRec n ((i + 1) >>> 1) >>> 1 ||| (if (i + 1) &&& 1 = 1 then n >>> 1 else 0) := by
  show revRecAux n i ((i + 1) >>> 1) >>> 1 ||| _ = _
  have h1 : (i + 1) >>> 1 ≤ i := by rw [Nat.shiftRight_one]; omega
  rw [revRecAux_fuel_irrel n ((i + 1) >>> 1) i ((i + 1) >>> 1) h1 (le_refl _)]
  rfl

/-- The recurrence of source line 38 agrees with the reference `bit_reverse`
on every index below a power-of-two length. -/
theorem revRec_eq_bit_reverse_aux (h n : Nat) (hn : n = 2 ^ h) :
    ∀ i, i < n → revRec n i = bit_reverse i h := by
  intro i
  induction i using Nat.strong_induction_on with
  | _ i ih =>
    intro hi
    match i with
    | 0 => rw [bit_reverse_zero_left]; rfl
    | i + 1 =>
      have hh : 1 ≤ h := by
        by_contra hcon
        have h0 : h = 0 := by omega
        subst h0
        subst hn
        omega
      obtain ⟨g, hg⟩ : ∃ g, h = g + 1 := ⟨h - 1, by omega⟩
      subst hg
      rw [revRec_succ_unfold]
      have hhalf : (i + 1) >>> 1 = (i + 1) / 2 := Nat.shiftRight_one _
      have hlt2 : (i + 1) / 2 < n := by
        subst hn
        have := Nat.two_pow_pos (g + 1)
        omega
      rw [hhalf, ih ((i + 1) / 2) (by omega) hlt2]
      have hdiv : (i + 1) / 2 < 2 ^ g := by
        subst hn
        rw [Nat.pow_succ] at hi
        omega
      have hbg : bit_reverse ((i + 1) / 2) (g + 1) = 2 * bit_reverse ((i + 1) / 2) g := by
        rw [bit_reverse_succ]
        have hz : ((i + 1) / 2) >>> g = 0 := by
          rw [Nat.shiftRight_eq_div_pow]
          exact Nat.div_eq_of_lt hdiv
        rw [hz]
        omega
      rw [hbg]
      have hshift : (2 * bit_reverse ((i + 1) / 2) g) >>> 1 =
          bit_reverse ((i + 1) / 2) g := by
        rw [Nat.shiftRight_one]
        omega
      rw [hshift, Nat.and_one_is_mod]
      have hns : n >>> 1 = 2 ^ g := by
        subst hn
        rw [Nat.shiftRight_one, Nat.pow_succ]
        omega
      rw [bit_reverse_succ_low]
      by_cases hpar : (i + 1) % 2 = 1
      · rw [if_pos hpar, hns, hpar, Nat.one_mul]
        exact lor_two_pow_of_lt (bit_reverse_lt _ _)
      · rw [if_neg hpar]
        have h0 : (i + 1) % 2 = 0 := by omega
        rw [h0, Nat.or_zero]
        omega

theorem revRec_lt (h n i : Nat) (hn : n = 2 ^ h) (hi : i < n) : revRec n i < n := by
  rw [revRec_eq_bit_reverse_aux h n hn i hi, hn]
  exact bit_reverse_lt _ _

theorem revRec_involution (h n i : Nat) (hn : n = 2 ^ h) (hi : i < n) :
    revRec n (revRec n i) = i := by
  have h1 := revRec_eq_bit_reverse_aux h n hn i hi
  have h2 := revRec_lt h n i hn hi
  rw [h1, revRec_eq_bit_reverse_aux h n hn _ (h1 ▸ h2), bit_reverse_involution h i (hn ▸ hi)]

/-! ### `floorLog2` on powers of two -/

theorem log2Aux_pow : ∀ h fuel acc, h ≤ fuel → log2Aux fuel (2 ^ h) acc = acc + h := by
  intro h
  induction h with
  | zero =>
    intro fuel acc _
    cases fuel with
    | zero => rfl
    | succ f => simp [log2Aux]
  | succ h ih =>
    intro fuel acc hle
    match fuel, hle with
    | f + 1, hle =>
      have h1 : 1 < 2 ^ (h + 1) := by
        have := Nat.one_lt_two_pow_iff (n := h + 1)
        omega
      have h2 : (2 : Nat) ^ (h + 1) >>> 1 = 2 ^ h := by
        rw [Nat.shiftRight_one, Nat.pow_succ]
        omega
      show log2Aux (f + 1) (2 ^ (h + 1)) acc = acc + (h + 1)
      rw [show log2Aux (f + 1) (2 ^ (h + 1)) acc =
        log2Aux f (2 ^ (h + 1) >>> 1) (acc + 1) by simp [log2Aux, h1]]
      rw [h2, ih f (acc + 1) (by omega)]
      omega

theorem floorLog2_two_pow (h : Nat) : floorLog2 (2 ^ h) = h := by
  unfold floorLog2
  rw [log2Aux_pow h (2 ^ h) 0 (le_of_lt (Nat.lt_two_pow h))]
  omega

/-! ### Indexing helpers -/

theorem getD_of_lt {a : List Nat} {i : Nat} (h : i < a.length) : a.getD i 0 = a[i] := by
  simp [List.getD_eq_getElem?_getD, List.getElem?_eq_getElem h]

theorem getElem?_of_lt {a : List Nat} {i : Nat} (h : i < a.length) :
    a[i]? = some (a.getD i 0) := by
  rw [List.getElem?_eq_getElem h, getD_of_lt h]

theorem getD_set_self {a : List Nat} {i v : Nat} (h : i < a.length) :
    (a.set i v).getD i 0 = v := by
  simp [List.getD_eq_getElem?_getD, List.getElem?_set_self h]

theorem getD_set_ne {a : List Nat} {i j v : Nat} (hij : i ≠ j) :
    (a.set i v).getD j 0 = a.getD j 0 := by
  simp [List.getD_eq_getElem?_getD, List.getElem?_set_ne hij]

theorem getD_replicate_zero (n q : Nat) : (List.replicate n (0:Nat)).getD q 0 = 0 := by
  rcases lt_or_ge q n with hq | hq
  · simp [List.getD_eq_getElem?_getD, List.getElem?_replicate, hq]
  · simp [List.getD_eq_getElem?_getD, List.getElem?_replicate, Nat.not_lt.mpr hq]

theorem getD_mem {a : List Nat} {i : Nat} (h : i < a.length) : a.getD i 0 ∈ a := by
  rw [getD_of_lt h]
  exact List.getElem_mem h

theorem listWrite_of_lt {a : List Nat} {i v : Nat} (h : i < a.length) :
    listWrite a i v = some (a.set i v) := by
  simp [listWrite, h]

theorem listSwap_of_lt {a : List Nat} {i j : Nat} (hi : i < a.length) (hj : j < a.length) :
    listSwap a i j = some ((a.set i (a.getD j 0)).set j (a.getD i 0)) := by
  unfold listSwap
  rw [getElem?_of_lt hi, getElem?_of_lt hj]
  rfl

/-! ### The bit-reversal permutation pass -/

theorem revSwapStep_eq (n t : Nat) (rv av : List Nat)
    (hrl : rv.length = n) (hal : av.length = n) (ht : t < n) (hrv : revRec n t < n)
    (hprev : rv.getD (t >>> 1) 0 = if t >>> 1 < t then revRec n (t >>> 1) else 0) :
    revSwapStep n (rv, av) t =
      some (rv.set t (revRec n t),
        if t < revRec n t
        then (av.set t (av.getD (revRec n t) 0)).set (revRec n t) (av.getD t 0)
        else av) := by
  have hhalf : t >>> 1 < n := by
    rw [Nat.shiftRight_one]
    omega
  have hval : rv.getD (t >>> 1) 0 >>> 1 ||| (if t &&& 1 = 1 then n >>> 1 else 0) =
      revRec n t := by
    match t with
    | 0 =>
      rw [hprev, if_neg (by omega : ¬ (0:Nat) >>> 1 < 0),
        if_neg (by decide : ¬((0:Nat) &&& 1 = 1))]
      rfl
    | i + 1 =>
      have hlt : (i + 1) >>> 1 < i + 1 := by rw [Nat.shiftRight_one]; omega
      rw [hprev, if_pos hlt, revRec_succ_unfold]
  unfold revSwapStep
  rw [getElem?_of_lt (by omega : t >>> 1 < rv.length)]
  simp only [Option.bind_eq_bind, Option.some_bind, hval]
  rw [listWrite_of_lt (by omega : t < rv.length)]
  simp only [Option.some_bind]
  by_cases hswap : t < revRec n t
  · rw [if_pos hswap, if_pos hswap,
      listSwap_of_lt (by omega : t < av.length) (by omega : revRec n t < av.length)]
    rfl
  · rw [if_neg hswap, if_neg hswap]
    rfl

theorem pass_fold_invariant (h n : Nat) (hn : n = 2 ^ h) (a : List Nat)
    (ha : a.length = n) :
    ∀ t, t ≤ n → ∃ rv av,
      (List.range t).foldlM (revSwapStep n) (List.replicate n 0, a) = some (rv, av) ∧
      rv.length = n ∧ av.length = n ∧
      (∀ q, q < n → rv.getD q 0 = if q < t then revRec n q else 0) ∧
      (∀ j, j < n → av.getD j 0 =
        if j < t ∨ revRec n j < t then a.getD (revRec n j) 0 else a.getD j 0) := by
  intro t
  induction t with
  | zero =>
    intro _
    refine ⟨List.replicate n 0, a, rfl, List.length_replicate _ _, ha, ?_, ?_⟩
    · intro q _
      rw [getD_replicate_zero]
      simp
    · intro j _
      simp
  | succ t ih =>
    intro ht1
    obtain ⟨rv, av, hfold, hrl, hal, hrinv, hainv⟩ := ih (by omega)
    have ht : t < n := by omega
    have hrvlt : revRec n t < n := revRec_lt h n t hn ht
    have hinv : revRec n (revRec n t) = t := revRec_involution h n t hn ht
    have hprev : rv.getD (t >>> 1) 0 = if t >>> 1 < t then revRec n (t >>> 1) else 0 := by
      have hh : t >>> 1 < n := by rw [Nat.shiftRight_one]; omega
      exact hrinv _ hh
    have hstep := revSwapStep_eq n t rv av hrl hal ht hrvlt hprev
    rw [List.range_succ, List.foldlM_append, hfold]
    simp only [List.foldlM_cons, List.foldlM_nil, Option.bind_eq_bind, Option.some_bind,
      hstep, Option.bind_some]
    refine ⟨_, _, rfl, by simp [hrl], ?_, ?_, ?_⟩
    · by_cases hswap : t < revRec n t <;> simp [hswap, hal]
    · intro q hq
      by_cases hqt : q = t
      · rw [hqt, getD_set_self (by omega), if_pos (by omega)]
      · rw [getD_set_ne (fun hh => hqt hh.symm), hrinv q hq]
        by_cases hc : q < t
        · rw [if_pos hc, if_pos (by omega)]
        · rw [if_neg hc, if_neg (by omega)]
    · intro j hj
      have hrvj : revRec n j < n := revRec_lt h n j hn hj
      have hinvj : revRec n (revRec n j) = j := revRec_involution h n j hn hj
      by_cases hswap : t < revRec n t
      · rw [if_pos hswap]
        by_cases hjrv : j = revRec n t
        · have hjrvlen : revRec n t < (av.set t (av.getD (revRec n t) 0)).length := by
            rw [List.length_set, hal]
            exact hrvlt
          rw [hjrv, getD_set_self hjrvlen, hainv t ht,
            if_neg (by omega : ¬(t < t ∨ revRec n t < t)), hinv,
            if_pos (Or.inr (by omega : t < t + 1))]
        · rw [getD_set_ne (fun hh => hjrv hh.symm)]
          by_cases hjt : j = t
          · rw [hjt, getD_set_self (by omega), hainv _ hrvlt, hinv,
              if_neg (by omega : ¬(revRec n t < t ∨ t < t)),
              if_pos (Or.inl (by omega : t < t + 1))]
          · rw [getD_set_ne (fun hh => hjt hh.symm), hainv j hj]
            have hrvjt : revRec n j ≠ t := fun hh => hjrv (by rw [← hh, hinvj])
            by_cases hc : j < t ∨ revRec n j < t
            · rw [if_pos hc, if_pos (by omega)]
            · rw [if_neg hc, if_neg (by omega)]
      · rw [if_neg hswap, hainv j hj]
        by_cases hjt : j = t
        · by_cases hc : j < t ∨ revRec n j < t
          · rw [if_pos hc, if_pos (by omega)]
          · have hrvt : revRec n j = j := by
              rw [hjt] at hc ⊢
              omega
            rw [if_neg hc, if_pos (by omega : j < t + 1 ∨ revRec n j < t + 1), hrvt]
        · by_cases hrvjt : revRec n j = t
          · have hjrv : j = revRec n t := by rw [← hrvjt, hinvj]
            have hjlt : j < t := by omega
            rw [if_pos (Or.inl hjlt), if_pos (Or.inl (by omega))]
          · by_cases hc : j < t ∨ revRec n j < t
            · rw [if_pos hc, if_pos (by omega)]
            · rw [if_neg hc, if_neg (by omega)]

theorem bitrevSwapPass_eq (h n : Nat) (hn : n = 2 ^ h) (a : List Nat) (ha : a.length = n) :
    ∃ b, bitrevSwapPass a n = some b ∧ b.length = n ∧
      ∀ j, j < n → b.getD j 0 = a.getD (revRec n j) 0 := by
  obtain ⟨rv, av, hfold, _, hal, _, hainv⟩ :=
    pass_fold_invariant h n hn a ha n (le_refl n)
  refine ⟨av, ?_, hal, ?_⟩
  · unfold bitrevSwapPass
    rw [hfold]
    rfl
  · intro j hj
    rw [hainv j hj, if_pos (Or.inl hj)]

/-! ### One stage of the decimation-in-time butterfly network -/

theorem stepList_of_dvd (n mh : Nat) (h1 : 1 ≤ mh) (hdvd : mh ∣ n) :
    stepList n mh = List.range' 0 (n / mh) mh := by
  unfold stepList
  congr 1
  obtain ⟨d, hd⟩ := hdvd
  subst hd
  rw [Nat.mul_div_cancel_left d (by omega)]
  have h2 : mh * d + mh - 1 = (mh - 1) + d * mh := by
    have : mh * d = d * mh := Nat.mul_comm _ _
    omega
  rw [h2, Nat.add_mul_div_right _ _ (by omega : 0 < mh), Nat.div_eq_of_lt (by omega),
    Nat.zero_add]

theorem mod_of_block {b i mh : Nat} (hb : mh ∣ b) (h1 : b ≤ i) (h2 : i < b + mh) :
    i % mh = i - b := by
  obtain ⟨q, hq⟩ := hb
  subst hq
  conv_lhs => rw [show i = mh * q + (i - mh * q) by omega]
  rw [Nat.mul_add_mod, Nat.mod_eq_of_lt (by omega)]

theorem butterflyStep_eq {m w j : Nat} {s : List Nat} {b n : Nat} (hs : s.length = n)
    (hbound : b + j + m < n) :
    butterflyStep m w j s b =
      some ((s.set (b + j) (bflyAdd s m w (b + j))).set (b + j + m)
        (bflySub s m w (b + j + m))) := by
  unfold butterflyStep
  rw [getElem?_of_lt (by omega : b + j < s.length),
    getElem?_of_lt (by omega : b + j + m < s.length)]
  simp only [Option.bind_eq_bind, Option.some_bind]
  rw [listWrite_of_lt (by omega : b + j < s.length)]
  simp only [Option.some_bind]
  rw [listWrite_of_lt (by simp [List.length_set]; omega :
    b + j + m < (s.set (b + j) (add64 (s.getD (b + j) 0)
      (mul64 (s.getD (b + j + m) 0) w % MODULUS) % MODULUS)).length)]
  unfold bflyAdd bflySub
  rw [show b + j + m - m = b + j by omega]

theorem butterfly_fold (n mh m w j : Nat) (hm : 1 ≤ m) (hmh : mh = 2 * m)
    (hj : j < m) (hdvd : mh ∣ n) :
    ∀ c s, s.length = n → mh * c ≤ n →
    ∃ s2, (List.range' (n - mh * c) c mh).foldlM (butterflyStep m w j) s = some s2 ∧
      s2.length = n ∧
      (∀ i, i < n →
        s2.getD i 0 =
          if n - mh * c ≤ i ∧ (i % mh = j ∨ i % mh = j + m)
          then (if i % mh = j then bflyAdd s m w i else bflySub s m w i)
          else s.getD i 0) := by
  intro c
  induction c with
  | zero =>
    intro s hs _
    refine ⟨s, by simp, hs, ?_⟩
    intro i hi
    have hcond : ¬(n - mh * 0 ≤ i ∧ (i % mh = j ∨ i % mh = j + m)) := by
      simp only [Nat.mul_zero, Nat.sub_zero]
      intro hcon
      omega
    rw [if_neg hcond]
  | succ c ih =>
    intro s hs hle
    set b := n - mh * (c + 1) with hb
    have hmhc : mh * (c + 1) = mh * c + mh := by ring
    have hbmh : b + mh = n - mh * c := by omega
    have hbmod : mh ∣ b := by
      obtain ⟨d, hd⟩ := hdvd
      have hcd : c + 1 ≤ d := by
        by_contra hcon
        have h1 : d ≤ c := by omega
        have h2 : mh * d ≤ mh * c := Nat.mul_le_mul_left mh h1
        omega
      refine ⟨d - (c + 1), ?_⟩
      have h3 : mh * (d - (c + 1)) + mh * (c + 1) = mh * d := by
        rw [← Nat.mul_add]
        congr 1
        omega
      omega
    have hblt : b + mh ≤ n := by omega
    have hrange : List.range' b (c + 1) mh = b :: List.range' (b + mh) c mh :=
      List.range'_succ _ _ _
    rw [hrange]
    have hstep := butterflyStep_eq (m := m) (w := w) (j := j) (s := s) (b := b) hs
      (by omega : b + j + m < n)
    set s1 := (s.set (b + j) (bflyAdd s m w (b + j))).set (b + j + m)
      (bflySub s m w (b + j + m)) with hs1
    have hs1len : s1.length = n := by
      rw [hs1]
      simp [List.length_set, hs]
    obtain ⟨s2, hfold, hs2len, hdesc⟩ := ih s1 hs1len (by omega)
    rw [← hbmh] at hfold
    refine ⟨s2, ?_, hs2len, ?_⟩
    · rw [List.foldlM_cons, hstep]
      simpa using hfold
    · intro i hi
      have hdi := hdesc i hi
      rw [← hbmh] at hdi
      -- helper facts
      have hbj : (b + j) % mh = j := by
        rw [mod_of_block hbmod (by omega) (by omega)]
        omega
      have hbjm : (b + j + m) % mh = j + m := by
        rw [mod_of_block hbmod (by omega) (by omega)]
        omega
      by_cases hcA : b + mh ≤ i ∧ (i % mh = j ∨ i % mh = j + m)
      · -- processed later: values of s1 at the read positions agree with s
        have hcB : b ≤ i ∧ (i % mh = j ∨ i % mh = j + m) := ⟨by omega, hcA.2⟩
        rw [hdi, if_pos hcA, if_pos hcB]
        rcases hcA.2 with hcls | hcls
        · rw [if_pos hcls, if_pos hcls]
          unfold bflyAdd
          have e1 : s1.getD i 0 = s.getD i 0 := by
            rw [hs1, getD_set_ne (by omega : b + j + m ≠ i),
              getD_set_ne (by omega : b + j ≠ i)]
          have e2 : s1.getD (i + m) 0 = s.getD (i + m) 0 := by
            rw [hs1, getD_set_ne (by omega : b + j + m ≠ i + m),
              getD_set_ne (by omega : b + j ≠ i + m)]
          rw [e1, e2]
        · have hne : ¬ i % mh = j := by omega
          rw [if_neg hne, if_neg hne]
          unfold bflySub
          have him : m ≤ i := by omega
          have himod : (i - m) % mh = j := by
            obtain ⟨q, hq⟩ : ∃ q, i = mh * q + (j + m) := by
              refine ⟨i / mh, ?_⟩
              conv_lhs => rw [← Nat.div_add_mod i mh]
              rw [hcls]
            have : i - m = mh * q + j := by omega
            rw [this, Nat.mul_add_mod, Nat.mod_eq_of_lt (by omega)]
          have hineq1 : i - m ≠ b + j + m := by
            intro hcon
            have : (i - m) % mh = (b + j + m) % mh := by rw [hcon]
            rw [himod, hbjm] at this
            omega
          have e1 : s1.getD (i - m) 0 = s.getD (i - m) 0 := by
            rw [hs1, getD_set_ne (fun hcon => hineq1 hcon.symm),
              getD_set_ne (by omega : b + j ≠ i - m)]
          have e2 : s1.getD i 0 = s.getD i 0 := by
            rw [hs1, getD_set_ne (by omega : b + j + m ≠ i),
              getD_set_ne (by omega : b + j ≠ i)]
          rw [e1, e2]
      · rw [hdi, if_neg hcA]
        by_cases hibj : i = b + j
        · rw [hs1, hibj, getD_set_ne (by omega : b + j + m ≠ b + j),
            getD_set_self (by rw [hs]; omega)]
          have hcB : b ≤ b + j ∧ ((b + j) % mh = j ∨ (b + j) % mh = j + m) :=
            ⟨by omega, Or.inl hbj⟩
          rw [if_pos hcB, if_pos hbj]
        · by_cases hibjm : i = b + j + m
          · rw [hs1, hibjm, getD_set_self (by simp [List.length_set, hs]; omega)]
            have hcB : b ≤ b + j + m ∧ ((b + j + m) % mh = j ∨ (b + j + m) % mh = j + m) :=
              ⟨by omega, Or.inr hbjm⟩
            rw [if_pos hcB, if_neg (by omega : ¬ (b + j + m) % mh = j)]
          · have e1 : s1.getD i 0 = s.getD i 0 := by
              rw [hs1, getD_set_ne (fun hcon => hibjm hcon.symm),
                getD_set_ne (fun hcon => hibj hcon.symm)]
            rw [e1]
            by_cases hcB : b ≤ i ∧ (i % mh = j ∨ i % mh = j + m)
            · exfalso
              have hilt : i < b + mh := by omega
              have := mod_of_block hbmod hcB.1 hilt
              rcases hcB.2 with hcls | hcls <;> omega
            · rw [if_neg hcB]

theorem wpow_lt (base : Nat) : ∀ j0, wpow base j0 < MODULUS := by
  intro j0
  cases j0 with
  | zero => exact (by decide : (1:Nat) < MODULUS)
  | succ j => exact Nat.mod_lt _ (by decide)

theorem partner_lt {n mh m i jj : Nat} (hmh : mh = 2 * m) (hdvd : mh ∣ n)
    (hi : i < n) (hjj : i % mh = jj) (hjm : jj < m) : i + m < n := by
  obtain ⟨d, hd⟩ := hdvd
  have hq : i = mh * (i / mh) + jj := by
    conv_lhs => rw [← Nat.div_add_mod i mh]
    rw [hjj]
  have hqd : i / mh < d := by
    by_contra hcon
    have h1 : d ≤ i / mh := by omega
    have h2 : mh * d ≤ mh * (i / mh) := Nat.mul_le_mul_left mh h1
    omega
  have h3 : mh * (i / mh + 1) ≤ mh * d := Nat.mul_le_mul_left mh (by omega)
  have h4 : mh * (i / mh + 1) = mh * (i / mh) + mh := by ring
  omega

theorem stageJ_fold (n mh m base : Nat) (hm : 1 ≤ m) (hmh : mh = 2 * m) (hdvd : mh ∣ n)
    (a0 : List Nat) (ha0 : a0.length = n) :
    ∀ j0, j0 ≤ m →
    ∃ s, (List.range j0).foldlM (nttStageJ n mh m base) (a0, 1) = some (s, wpow base j0) ∧
      s.length = n ∧
      (∀ i, i < n → s.getD i 0 =
        if i % mh < j0 ∨ (m ≤ i % mh ∧ i % mh < m + j0) then colVal a0 mh m base i
        else a0.getD i 0) := by
  intro j0
  induction j0 with
  | zero =>
    intro _
    refine ⟨a0, by simp [wpow], ha0, ?_⟩
    intro i hi
    rw [if_neg (by omega)]
  | succ j0 ih =>
    intro hj1
    obtain ⟨s, hfold, hslen, hsdesc⟩ := ih (by omega)
    have hj0m : j0 < m := by omega
    have hmh1 : 1 ≤ mh := by omega
    have hcfold := butterfly_fold n mh m (wpow base j0) j0 hm hmh hj0m hdvd (n / mh) s
      hslen (by rw [Nat.mul_div_cancel' hdvd])
    obtain ⟨s2, hbfold, hs2len, hs2desc⟩ := hcfold
    rw [Nat.mul_div_cancel' hdvd, Nat.sub_self] at hbfold hs2desc
    have hstep : nttStageJ n mh m base (s, wpow base j0) j0 =
        some (s2, wpow base (j0 + 1)) := by
      unfold nttStageJ
      rw [stepList_of_dvd n mh hmh1 hdvd]
      simp only [Option.bind_eq_bind]
      rw [hbfold]
      rfl
    rw [List.range_succ, List.foldlM_append, hfold]
    simp only [List.foldlM_cons, List.foldlM_nil, Option.bind_eq_bind, Option.some_bind,
      hstep, Option.bind_some]
    refine ⟨s2, rfl, hs2len, ?_⟩
    intro i hi
    have hmod : i % mh < mh := Nat.mod_lt _ (by omega)
    rw [hs2desc i hi]
    by_cases hclass : i % mh = j0 ∨ i % mh = j0 + m
    · rw [if_pos ⟨by omega, hclass⟩]
      rcases hclass with hcls | hcls
      · rw [if_pos hcls]
        have hipm : i + m < n := partner_lt hmh hdvd hi hcls (by omega)
        have hipmod : (i + m) % mh = j0 + m := by
          obtain ⟨q, hq⟩ : ∃ q, i = mh * q + j0 := by
            refine ⟨i / mh, ?_⟩
            conv_lhs => rw [← Nat.div_add_mod i mh]
            rw [hcls]
          rw [show i + m = mh * q + (j0 + m) by omega, Nat.mul_add_mod,
            Nat.mod_eq_of_lt (by omega)]
        have e1 : s.getD i 0 = a0.getD i 0 := by
          rw [hsdesc i hi, if_neg (by omega)]
        have e2 : s.getD (i + m) 0 = a0.getD (i + m) 0 := by
          rw [hsdesc (i + m) hipm, if_neg (by omega)]
        rw [if_pos (by omega : i % mh < j0 + 1 ∨ (m ≤ i % mh ∧ i % mh < m + (j0 + 1)))]
        unfold colVal
        rw [if_pos (by omega : i % mh < m), hcls]
        unfold bflyAdd
        rw [e1, e2]
      · rw [if_neg (by omega : ¬ i % mh = j0)]
        have him : m ≤ i := by
          have := Nat.mod_le i mh
          omega
        have himod : (i - m) % mh = j0 := by
          obtain ⟨q, hq⟩ : ∃ q, i = mh * q + (j0 + m) := by
            refine ⟨i / mh, ?_⟩
            conv_lhs => rw [← Nat.div_add_mod i mh]
            rw [hcls]
          rw [show i - m = mh * q + j0 by omega, Nat.mul_add_mod,
            Nat.mod_eq_of_lt (by omega)]
        have e1 : s.getD (i - m) 0 = a0.getD (i - m) 0 := by
          rw [hsdesc (i - m) (by omega), if_neg (by omega)]
        have e2 : s.getD i 0 = a0.getD i 0 := by
          rw [hsdesc i hi, if_neg (by omega)]
        rw [if_pos (by omega : i % mh < j0 + 1 ∨ (m ≤ i % mh ∧ i % mh < m + (j0 + 1)))]
        unfold colVal
        rw [if_neg (by omega : ¬ i % mh < m), hcls, show j0 + m - m = j0 by omega]
        unfold bflySub
        rw [e1, e2]
    · rw [if_neg (by omega)]
      rw [hsdesc i hi]
      by_cases hc : i % mh < j0 ∨ (m ≤ i % mh ∧ i % mh < m + j0)
      · rw [if_pos hc, if_pos (by omega)]
      · rw [if_neg hc, if_neg (by omega)]

/-! ### The prime field `F = ZMod MODULUS` -/

instance : NeZero MODULUS := ⟨by decide⟩

instance : Fact (1 < MODULUS) := ⟨by decide⟩

theorem castF_val (x : F) : ((x.val : Nat) : F) = x := ZMod.natCast_rightInverse x

theorem castF_mod (x : Nat) : ((x % MODULUS : Nat) : F) = (x : F) := by
  conv_rhs => rw [← Nat.div_add_mod x MODULUS]
  push_cast
  rw [ZMod.natCast_self]
  ring

theorem mod_eq_val (x : Nat) : x % MODULUS = ((x : Nat) : F).val :=
  (ZMod.val_natCast x).symm

theorem MODULUS_prime : Nat.Prime MODULUS := by
  have hcast : ∀ e : Nat, ((powerMod 3 e MODULUS : Nat) : F) = ((3 : Nat) : F) ^ e := by
    intro e
    rw [powerMod_correct 3 e MODULUS_two_le MODULUS_le, castF_mod]
    push_cast
    rfl
  have hne : ∀ e v : Nat, powerMod 3 e MODULUS = v → v < MODULUS → v ≠ 1 →
      ((3 : Nat) : F) ^ e ≠ 1 := by
    intro e v hpm hvlt hv1 hcon
    have h2 := hcast e
    rw [hpm, hcon] at h2
    have h4 : (((v : Nat) : F)).val = ((1 : F)).val := by rw [h2]
    rw [ZMod.val_cast_of_lt hvlt, ZMod.val_one] at h4
    exact hv1 h4
  apply lucas_primality MODULUS ((3 : Nat) : F)
  · have h1 : powerMod 3 (MODULUS - 1) MODULUS = 1 := by decide
    have h2 := hcast (MODULUS - 1)
    rw [h1] at h2
    rw [← h2]
    exact Nat.cast_one
  · intro q hq hdvd
    have hfac : MODULUS - 1 = 2 ^ 23 * (7 * 17) := by decide
    rw [hfac] at hdvd
    have hq2 : q = 2 ∨ q = 7 ∨ q = 17 := by
      rcases (Nat.Prime.dvd_mul hq).mp hdvd with h2 | h717
      · exact Or.inl ((Nat.prime_dvd_prime_iff_eq hq Nat.prime_two).mp
          (Nat.Prime.dvd_of_dvd_pow hq h2))
      · rcases (Nat.Prime.dvd_mul hq).mp h717 with h7 | h17
        · exact Or.inr (Or.inl ((Nat.prime_dvd_prime_iff_eq hq (by norm_num)).mp h7))
        · exact Or.inr (Or.inr ((Nat.prime_dvd_prime_iff_eq hq (by norm_num)).mp h17))
    rcases hq2 with rfl | rfl | rfl
    · exact hne ((MODULUS - 1) / 2) 998244352 (by decide) (by decide) (by decide)
    · exact hne ((MODULUS - 1) / 7) 779057549 (by decide) (by decide) (by decide)
    · exact hne ((MODULUS - 1) / 17) 337827833 (by decide) (by decide) (by decide)

instance : Fact (Nat.Prime MODULUS) := ⟨MODULUS_prime⟩

theorem sq_bound : (MODULUS - 1) ^ 2 < U64SIZE := by decide

theorem sq_add_bound : (MODULUS - 1) ^ 2 + MODULUS < U64SIZE := by decide

theorem mod_mul_bound : MODULUS * MODULUS < U64SIZE := by decide

theorem wpow_val {base : Nat} (hbase : base < MODULUS) :
    ∀ j, wpow base j = ((base : F) ^ j).val := by
  intro j
  induction j with
  | zero =>
    show (1 : Nat) = ((1 : F)).val
    rw [ZMod.val_one]
  | succ j ih =>
    show mul64 (wpow base j) base % MODULUS = ((base : F) ^ (j + 1)).val
    have h1 : wpow base j * base < U64SIZE := by
      have hw : wpow base j < MODULUS := wpow_lt base j
      calc wpow base j * base ≤ MODULUS * MODULUS :=
            Nat.mul_le_mul (le_of_lt hw) (le_of_lt hbase)
        _ < U64SIZE := mod_mul_bound
    rw [mul64_eq h1, ih, mod_eq_val]
    congr 1
    push_cast
    rw [castF_val]
    ring

theorem colVal_lt (a : List Nat) (mh m base i : Nat) : colVal a mh m base i < MODULUS := by
  unfold colVal bflyAdd bflySub
  by_cases hc : i % mh < m
  · rw [if_pos hc]
    exact Nat.mod_lt _ (by decide)
  · rw [if_neg hc]
    exact Nat.mod_lt _ (by decide)

theorem colVal_eq (a : List Nat) (n mh m base i : Nat)
    (hm : 1 ≤ m) (hmh : mh = 2 * m) (hdvd : mh ∣ n) (hlen : a.length = n)
    (hbase : base < MODULUS)
    (hv1 : ∀ x ∈ a, x ≤ (MODULUS - 1) ^ 2)
    (hv2 : 2 ≤ m → ∀ x ∈ a, x < MODULUS)
    (hi : i < n) :
    colVal a mh m base i =
      if i % mh < m
      then ((a.getD i 0 : F) + (base : F) ^ (i % mh) * (a.getD (i + m) 0 : F)).val
      else ((a.getD (i - m) 0 : F) - (base : F) ^ (i % mh - m) * (a.getD i 0 : F)).val := by
  have hmod : i % mh < mh := Nat.mod_lt _ (by omega)
  unfold colVal bflyAdd bflySub
  by_cases hjm : i % mh < m
  · rw [if_pos hjm, if_pos hjm]
    have hipm : i + m < n := partner_lt hmh hdvd hi rfl hjm
    have hu : a.getD i 0 ≤ (MODULUS - 1) ^ 2 := hv1 _ (getD_mem (by omega))
    have hd : a.getD (i + m) 0 ≤ (MODULUS - 1) ^ 2 := hv1 _ (getD_mem (by omega))
    have hw : wpow base (i % mh) = ((base : F) ^ (i % mh)).val := wpow_val hbase _
    have hwlt : wpow base (i % mh) < MODULUS := wpow_lt base _
    have hmul : a.getD (i + m) 0 * wpow base (i % mh) < U64SIZE := by
      rcases Nat.eq_zero_or_pos (i % mh) with h0 | h0
      · rw [h0]
        show a.getD (i + m) 0 * 1 < U64SIZE
        have := sq_bound
        omega
      · have hm2 : 2 ≤ m := by omega
        have hdlt : a.getD (i + m) 0 < MODULUS := hv2 hm2 _ (getD_mem (by omega))
        calc a.getD (i + m) 0 * wpow base (i % mh) ≤ MODULUS * MODULUS :=
              Nat.mul_le_mul (le_of_lt hdlt) (le_of_lt hwlt)
          _ < U64SIZE := mod_mul_bound
    rw [mul64_eq hmul]
    have ht : a.getD (i + m) 0 * wpow base (i % mh) % MODULUS < MODULUS :=
      Nat.mod_lt _ (by decide)
    have hadd : a.getD i 0 + a.getD (i + m) 0 * wpow base (i % mh) % MODULUS < U64SIZE := by
      have := sq_add_bound
      omega
    rw [add64_eq hadd, mod_eq_val]
    congr 1
    push_cast
    rw [castF_mod]
    push_cast
    rw [hw, castF_val]
    ring
  · rw [if_neg hjm, if_neg hjm]
    have hmle : m ≤ i % mh := by omega
    have him : m ≤ i := le_trans hmle (Nat.mod_le i mh)
    have hu : a.getD (i - m) 0 ≤ (MODULUS - 1) ^ 2 := hv1 _ (getD_mem (by omega))
    have hd : a.getD i 0 ≤ (MODULUS - 1) ^ 2 := hv1 _ (getD_mem (by omega))
    have hw : wpow base (i % mh - m) = ((base : F) ^ (i % mh - m)).val := wpow_val hbase _
    have hwlt : wpow base (i % mh - m) < MODULUS := wpow_lt base _
    have hmul : a.getD i 0 * wpow base (i % mh - m) < U64SIZE := by
      rcases Nat.eq_zero_or_pos (i % mh - m) with h0 | h0
      · rw [h0]
        show a.getD i 0 * 1 < U64SIZE
        have := sq_bound
        omega
      · have hm2 : 2 ≤ m := by omega
        have hdlt : a.getD i 0 < MODULUS := hv2 hm2 _ (getD_mem (by omega))
        calc a.getD i 0 * wpow base (i % mh - m) ≤ MODULUS * MODULUS :=
              Nat.mul_le_mul (le_of_lt hdlt) (le_of_lt hwlt)
          _ < U64SIZE := mod_mul_bound
    rw [mul64_eq hmul]
    have ht : a.getD i 0 * wpow base (i % mh - m) % MODULUS < MODULUS :=
      Nat.mod_lt _ (by decide)
    have haddM : a.getD (i - m) 0 + MODULUS < U64SIZE := by
      have := sq_add_bound
      omega
    rw [add64_eq haddM]
    have hsub : a.getD (i - m) 0 + MODULUS - (a.getD i 0 * wpow base (i % mh - m) % MODULUS)
        = a.getD (i - m) 0 + (MODULUS - a.getD i 0 * wpow base (i % mh - m) % MODULUS) := by
      omega
    rw [sub64_eq (by omega) (by omega), hsub, mod_eq_val]
    congr 1
    push_cast [Nat.cast_sub (le_of_lt ht)]
    rw [castF_mod, ZMod.natCast_self]
    push_cast
    rw [hw, castF_val]
    ring

theorem nttStage_eq (a : List Nat) (n mh m base : Nat)
    (hm : 1 ≤ m) (hmh : mh = 2 * m) (hdvd : mh ∣ n) (hlen : a.length = n)
    (hbase : base < MODULUS)
    (hv1 : ∀ x ∈ a, x ≤ (MODULUS - 1) ^ 2)
    (hv2 : 2 ≤ m → ∀ x ∈ a, x < MODULUS) :
    ∃ b, nttStage a n mh m base = some b ∧ b.length = n ∧
      (∀ x ∈ b, x < MODULUS) ∧
      (∀ i, i < n → b.getD i 0 =
        if i % mh < m
        then ((a.getD i 0 : F) + (base : F) ^ (i % mh) * (a.getD (i + m) 0 : F)).val
        else ((a.getD (i - m) 0 : F) - (base : F) ^ (i % mh - m) * (a.getD i 0 : F)).val) := by
  obtain ⟨s, hfold, hslen, hsdesc⟩ := stageJ_fold n mh m base hm hmh hdvd a hlen m (le_refl m)
  have hdesc : ∀ i, i < n → s.getD i 0 = colVal a mh m base i := by
    intro i hi
    have hmod : i % mh < mh := Nat.mod_lt _ (by omega)
    rw [hsdesc i hi, if_pos (by omega)]
  refine ⟨s, ?_, hslen, ?_, ?_⟩
  · unfold nttStage
    rw [hfold]
    rfl
  · intro x hx
    obtain ⟨idx, hidx, hval⟩ := List.mem_iff_getElem.mp hx
    rw [← getD_of_lt hidx] at hval
    rw [← hval, hdesc idx (by omega)]
    exact colVal_lt _ _ _ _ _
  · intro i hi
    rw [hdesc i hi]
    exact colVal_eq a n mh m base i hm hmh hdvd hlen hbase hv1 hv2 hi

/-! ### The stage invariant `specVal` -/

theorem sum_range_even_odd (g : Nat → F) (N : Nat) :
    ∑ t ∈ Finset.range (2 * N), g t =
      (∑ t ∈ Finset.range N, g (2 * t)) + ∑ t ∈ Finset.range N, g (2 * t + 1) := by
  induction N with
  | zero => simp
  | succ N ih =>
    rw [show 2 * (N + 1) = (2 * N + 1) + 1 by ring, Finset.sum_range_succ,
      Finset.sum_range_succ, ih, Finset.sum_range_succ, Finset.sum_range_succ]
    ring

theorem two_pow_dvd_modulus_sub_one {s : Nat} (hs : s ≤ 23) : 2 ^ s ∣ MODULUS - 1 := by
  have h1 : (2:Nat) ^ s ∣ 2 ^ 23 := pow_dvd_pow 2 hs
  exact dvd_trans h1 ⟨119, by decide⟩

theorem specVal_zero (h : Nat) (r : F) (x : Nat → F) (i : Nat) :
    specVal h 0 r x i = x (bit_reverse i h) := by
  simp [specVal]

theorem div_mod_decomp {A q jj : Nat} (hA : 0 < A) (hjj : jj < A) :
    (A * q + jj) / A = q ∧ (A * q + jj) % A = jj := by
  constructor
  · rw [Nat.add_comm, Nat.add_mul_div_left _ _ hA, Nat.div_eq_of_lt hjj, Nat.zero_add]
  · rw [Nat.mul_add_mod, Nat.mod_eq_of_lt hjj]

theorem specVal_split_A (h s : Nat) (hsh : s + 1 ≤ h) (hh : h ≤ 23) (rF : F)
    (x : Nat → F) (q jj : Nat) (hjj : jj < 2 ^ s) :
    specVal h (s + 1) rF x (2 ^ (s + 1) * q + jj) =
      specVal h s rF x (2 ^ (s + 1) * q + jj) +
        (rF ^ ((MODULUS - 1) / 2 ^ (s + 1))) ^ jj *
          specVal h s rF x (2 ^ (s + 1) * q + jj + 2 ^ s) := by
  have hpow2 : (2:Nat) ^ (s + 1) = 2 * 2 ^ s := by rw [Nat.pow_succ]; ring
  have hhs : h - s = (h - (s + 1)) + 1 := by omega
  have hpowh : (2:Nat) ^ (h - s) = 2 ^ (h - (s + 1)) * 2 := by rw [hhs, Nat.pow_succ]
  obtain ⟨c, hc⟩ := two_pow_dvd_modulus_sub_one (show s + 1 ≤ 23 by omega)
  have hps : (0:Nat) < 2 ^ s := Nat.two_pow_pos s
  have hps1 : (0:Nat) < 2 ^ (s + 1) := Nat.two_pow_pos (s + 1)
  have e1 : (MODULUS - 1) / 2 ^ (s + 1) = c := by
    rw [hc]
    exact Nat.mul_div_cancel_left c hps1
  have e2 : (MODULUS - 1) / 2 ^ s = 2 * c := by
    rw [hc, show (2:Nat) ^ (s + 1) * c = (2 * c) * 2 ^ s by rw [hpow2]; ring]
    exact Nat.mul_div_cancel _ hps
  have hjj2 : jj < 2 ^ (s + 1) := by omega
  have hd1 : (2 ^ (s + 1) * q + jj) / 2 ^ (s + 1) = q := (div_mod_decomp hps1 hjj2).1
  have hm1 : (2 ^ (s + 1) * q + jj) % 2 ^ (s + 1) = jj := (div_mod_decomp hps1 hjj2).2
  have hrw2 : 2 ^ (s + 1) * q + jj = 2 ^ s * (2 * q) + jj := by rw [hpow2]; ring
  have hd2 : (2 ^ (s + 1) * q + jj) / 2 ^ s = 2 * q := by
    rw [hrw2]
    exact (div_mod_decomp hps hjj).1
  have hm2 : (2 ^ (s + 1) * q + jj) % 2 ^ s = jj := by
    rw [hrw2]
    exact (div_mod_decomp hps hjj).2
  have hrw3 : 2 ^ (s + 1) * q + jj + 2 ^ s = 2 ^ s * (2 * q + 1) + jj := by rw [hpow2]; ring
  have hd3 : (2 ^ (s + 1) * q + jj + 2 ^ s) / 2 ^ s = 2 * q + 1 := by
    rw [hrw3]
    exact (div_mod_decomp hps hjj).1
  have hm3 : (2 ^ (s + 1) * q + jj + 2 ^ s) % 2 ^ s = jj := by
    rw [hrw3]
    exact (div_mod_decomp hps hjj).2
  have hbrevE : bit_reverse (2 * q) (h - s) = bit_reverse q (h - (s + 1)) := by
    rw [hhs, bit_reverse_succ_low, Nat.mul_div_cancel_left q (by omega), Nat.mul_mod_right]
    simp
  have hbrevO : bit_reverse (2 * q + 1) (h - s) =
      bit_reverse q (h - (s + 1)) + 2 ^ (h - (s + 1)) := by
    rw [hhs, bit_reverse_succ_low]
    have hdq : (2 * q + 1) / 2 = q := by omega
    have hmq : (2 * q + 1) % 2 = 1 := by omega
    rw [hdq, hmq, Nat.one_mul]
  unfold specVal
  rw [hd1, hm1, hd2, hm2, hd3, hm3]
  rw [show Finset.range (2 ^ (s + 1)) = Finset.range (2 * 2 ^ s) by rw [hpow2]]
  rw [sum_range_even_odd]
  congr 1
  · apply Finset.sum_congr rfl
    intro t _
    have harg : 2 * t * 2 ^ (h - (s + 1)) = t * 2 ^ (h - s) := by rw [hpowh]; ring
    rw [harg, hbrevE, e1, e2]
    congr 1
    rw [← pow_mul, ← pow_mul]
    congr 1
    ring
  · rw [Finset.mul_sum]
    apply Finset.sum_congr rfl
    intro t _
    have harg : (2 * t + 1) * 2 ^ (h - (s + 1)) + bit_reverse q (h - (s + 1)) =
        t * 2 ^ (h - s) + (bit_reverse q (h - (s + 1)) + 2 ^ (h - (s + 1))) := by
      rw [hpowh]
      ring
    rw [harg, hbrevO, e1, e2]
    rw [show bit_reverse q (h - (s + 1)) + 2 ^ (h - (s + 1)) =
      bit_reverse q (h - (s + 1)) + 2 ^ (h - (s + 1)) from rfl]
    have hexp : (rF ^ c) ^ (jj * (2 * t + 1)) =
        (rF ^ c) ^ jj * (rF ^ (2 * c)) ^ (jj * t) := by
      rw [← pow_mul, ← pow_mul, ← pow_mul, ← pow_add]
      congr 1
      ring
    rw [hexp]
    ring

theorem specVal_split_B (h s : Nat) (hsh : s + 1 ≤ h) (hh : h ≤ 23) (rF : F)
    (HR : rF ^ ((MODULUS - 1) / 2) = -1)
    (x : Nat → F) (q jj : Nat) (hjj : jj < 2 ^ s) :
    specVal h (s + 1) rF x (2 ^ (s + 1) * q + 2 ^ s + jj) =
      specVal h s rF x (2 ^ (s + 1) * q + jj) -
        (rF ^ ((MODULUS - 1) / 2 ^ (s + 1))) ^ jj *
          specVal h s rF x (2 ^ (s + 1) * q + 2 ^ s + jj) := by
  have hpow2 : (2:Nat) ^ (s + 1) = 2 * 2 ^ s := by rw [Nat.pow_succ]; ring
  have hhs : h - s = h - (s + 1) + 1 := by omega
  have hpowh : (2:Nat) ^ (h - s) = 2 ^ (h - (s + 1)) * 2 := by rw [hhs, Nat.pow_succ]
  obtain ⟨c, hc⟩ := two_pow_dvd_modulus_sub_one (show s + 1 ≤ 23 by omega)
  have hps : (0:Nat) < 2 ^ s := Nat.two_pow_pos s
  have hps1 : (0:Nat) < 2 ^ (s + 1) := Nat.two_pow_pos (s + 1)
  have e1 : (MODULUS - 1) / 2 ^ (s + 1) = c := by
    rw [hc]
    exact Nat.mul_div_cancel_left c hps1
  have e2 : (MODULUS - 1) / 2 ^ s = 2 * c := by
    rw [hc, show (2:Nat) ^ (s + 1) * c = (2 * c) * 2 ^ s by rw [hpow2]; ring]
    exact Nat.mul_div_cancel _ hps
  have e3 : (MODULUS - 1) / 2 = 2 ^ s * c := by
    rw [hc, show (2:Nat) ^ (s + 1) * c = (2 ^ s * c) * 2 by rw [hpow2]; ring]
    exact Nat.mul_div_cancel _ (by omega)
  -- root identities
  have hB2 : (rF ^ c) ^ (2 ^ s) = -1 := by
    rw [← pow_mul, show c * 2 ^ s = 2 ^ s * c by ring, ← e3, HR]
  have hB3 : (rF ^ (2 * c)) ^ (2 ^ s) = 1 := by
    have hfull : rF ^ (MODULUS - 1) = 1 := by
      have hsplit2 : MODULUS - 1 = (MODULUS - 1) / 2 * 2 := by
        rw [e3, hc, hpow2]
        ring
      rw [hsplit2, pow_mul, HR]
      ring
    rw [← pow_mul, show 2 * c * 2 ^ s = MODULUS - 1 by rw [hc, hpow2]; ring, hfull]
  -- index decompositions
  have hjj2 : 2 ^ s + jj < 2 ^ (s + 1) := by omega
  have hrw1 : 2 ^ (s + 1) * q + 2 ^ s + jj = 2 ^ (s + 1) * q + (2 ^ s + jj) := by ring
  have hd1 : (2 ^ (s + 1) * q + 2 ^ s + jj) / 2 ^ (s + 1) = q := by
    rw [hrw1]
    exact (div_mod_decomp hps1 hjj2).1
  have hm1 : (2 ^ (s + 1) * q + 2 ^ s + jj) % 2 ^ (s + 1) = 2 ^ s + jj := by
    rw [hrw1]
    exact (div_mod_decomp hps1 hjj2).2
  have hrw2 : 2 ^ (s + 1) * q + jj = 2 ^ s * (2 * q) + jj := by rw [hpow2]; ring
  have hd2 : (2 ^ (s + 1) * q + jj) / 2 ^ s = 2 * q := by
    rw [hrw2]
    exact (div_mod_decomp hps hjj).1
  have hm2 : (2 ^ (s + 1) * q + jj) % 2 ^ s = jj := by
    rw [hrw2]
    exact (div_mod_decomp hps hjj).2
  have hrw3 : 2 ^ (s + 1) * q + 2 ^ s + jj = 2 ^ s * (2 * q + 1) + jj := by rw [hpow2]; ring
  have hd3 : (2 ^ (s + 1) * q + 2 ^ s + jj) / 2 ^ s = 2 * q + 1 := by
    rw [hrw3]
    exact (div_mod_decomp hps hjj).1
  have hm3 : (2 ^ (s + 1) * q + 2 ^ s + jj) % 2 ^ s = jj := by
    rw [hrw3]
    exact (div_mod_decomp hps hjj).2
  have hbrevE : bit_reverse (2 * q) (h - s) = bit_reverse q (h - (s + 1)) := by
    rw [hhs, bit_reverse_succ_low, Nat.mul_div_cancel_left q (by omega), Nat.mul_mod_right]
    simp
  have hbrevO : bit_reverse (2 * q + 1) (h - s) =
      bit_reverse q (h - (s + 1)) + 2 ^ (h - (s + 1)) := by
    rw [hhs, bit_reverse_succ_low]
    have hdq : (2 * q + 1) / 2 = q := by omega
    have hmq : (2 * q + 1) % 2 = 1 := by omega
    rw [hdq, hmq, Nat.one_mul]
  unfold specVal
  rw [hd1, hm1, hd2, hm2, hd3, hm3]
  rw [show Finset.range (2 ^ (s + 1)) = Finset.range (2 * 2 ^ s) by rw [hpow2]]
  rw [sum_range_even_odd]
  have powF_congr : ∀ {m1 m2 : Nat}, m1 = m2 → rF ^ m1 = rF ^ m2 := by
    intro m1 m2 hmm12
    rw [hmm12]
  have hEv : (∑ t ∈ Finset.range (2 ^ s),
        x (2 * t * 2 ^ (h - (s + 1)) + bit_reverse q (h - (s + 1))) *
          (rF ^ ((MODULUS - 1) / 2 ^ (s + 1))) ^ ((2 ^ s + jj) * (2 * t))) =
      ∑ t ∈ Finset.range (2 ^ s),
        x (t * 2 ^ (h - s) + bit_reverse (2 * q) (h - s)) *
          (rF ^ ((MODULUS - 1) / 2 ^ s)) ^ (jj * t) := by
    apply Finset.sum_congr rfl
    intro t _
    have harg : 2 * t * 2 ^ (h - (s + 1)) = t * 2 ^ (h - s) := by rw [hpowh]; ring
    have p0 : (rF ^ c) ^ ((2 ^ s + jj) * (2 * t)) = rF ^ (c * ((2 ^ s + jj) * (2 * t))) :=
      (pow_mul rF c _).symm
    have pe : rF ^ (c * ((2 ^ s + jj) * (2 * t))) =
        rF ^ (2 * c * (jj * t) + 2 * c * (2 ^ s * t)) := powF_congr (by ring)
    have p2 : rF ^ (2 * c * (jj * t) + 2 * c * (2 ^ s * t)) =
        rF ^ (2 * c * (jj * t)) * rF ^ (2 * c * (2 ^ s * t)) := pow_add rF _ _
    have p3 : rF ^ (2 * c * (jj * t)) = (rF ^ (2 * c)) ^ (jj * t) :=
      pow_mul rF (2 * c) (jj * t)
    have p4 : rF ^ (2 * c * (2 ^ s * t)) = ((rF ^ (2 * c)) ^ (2 ^ s)) ^ t := by
      rw [pow_mul rF (2 * c) (2 ^ s * t), pow_mul (rF ^ (2 * c)) (2 ^ s) t]
    have hexp : (rF ^ c) ^ ((2 ^ s + jj) * (2 * t)) = (rF ^ (2 * c)) ^ (jj * t) := by
      rw [p0, pe, p2, p3, p4, hB3, one_pow, mul_one]
    rw [harg, hbrevE, e1, e2, hexp]
  have hOd : (∑ t ∈ Finset.range (2 ^ s),
        x ((2 * t + 1) * 2 ^ (h - (s + 1)) + bit_reverse q (h - (s + 1))) *
          (rF ^ ((MODULUS - 1) / 2 ^ (s + 1))) ^ ((2 ^ s + jj) * (2 * t + 1))) =
      -((rF ^ ((MODULUS - 1) / 2 ^ (s + 1))) ^ jj *
        ∑ t ∈ Finset.range (2 ^ s),
          x (t * 2 ^ (h - s) + bit_reverse (2 * q + 1) (h - s)) *
            (rF ^ ((MODULUS - 1) / 2 ^ s)) ^ (jj * t)) := by
    rw [Finset.mul_sum, ← Finset.sum_neg_distrib]
    apply Finset.sum_congr rfl
    intro t _
    have harg : (2 * t + 1) * 2 ^ (h - (s + 1)) + bit_reverse q (h - (s + 1)) =
        t * 2 ^ (h - s) + (bit_reverse q (h - (s + 1)) + 2 ^ (h - (s + 1))) := by
      rw [hpowh]
      ring
    have p0 : (rF ^ c) ^ ((2 ^ s + jj) * (2 * t + 1)) =
        rF ^ (c * ((2 ^ s + jj) * (2 * t + 1))) := (pow_mul rF c _).symm
    have pe : rF ^ (c * ((2 ^ s + jj) * (2 * t + 1))) =
        rF ^ (2 * c * (2 ^ s * t) + (c * 2 ^ s + (c * jj + 2 * c * (jj * t)))) :=
      powF_congr (by ring)
    have p2 : rF ^ (2 * c * (2 ^ s * t) + (c * 2 ^ s + (c * jj + 2 * c * (jj * t)))) =
        rF ^ (2 * c * (2 ^ s * t)) *
          (rF ^ (c * 2 ^ s) * (rF ^ (c * jj) * rF ^ (2 * c * (jj * t)))) := by
      rw [pow_add rF (2 * c * (2 ^ s * t)) _, pow_add rF (c * 2 ^ s) _,
        pow_add rF (c * jj) _]
    have p3 : rF ^ (2 * c * (2 ^ s * t)) = ((rF ^ (2 * c)) ^ (2 ^ s)) ^ t := by
      rw [pow_mul rF (2 * c) (2 ^ s * t), pow_mul (rF ^ (2 * c)) (2 ^ s) t]
    have p4 : rF ^ (c * 2 ^ s) = (rF ^ c) ^ (2 ^ s) := pow_mul rF c (2 ^ s)
    have p5 : rF ^ (c * jj) = (rF ^ c) ^ jj := pow_mul rF c jj
    have p6 : rF ^ (2 * c * (jj * t)) = (rF ^ (2 * c)) ^ (jj * t) :=
      pow_mul rF (2 * c) (jj * t)
    have hexp : (rF ^ c) ^ ((2 ^ s + jj) * (2 * t + 1)) =
        -((rF ^ c) ^ jj * (rF ^ (2 * c)) ^ (jj * t)) := by
      rw [p0, pe, p2, p3, p4, p5, p6, hB3, hB2, one_pow, one_mul, neg_one_mul]
    rw [harg, hbrevO, e1, e2, hexp]
    ring
  rw [hEv, hOd]
  ring

/-! ### The stage loop computes the DFT -/

theorem castF_powerMod (root e : Nat) :
    ((powerMod root e MODULUS : Nat) : F) = (root : F) ^ e := by
  rw [powerMod_correct root e MODULUS_two_le MODULUS_le, castF_mod]
  push_cast
  rfl

theorem values_lt_of_desc {b : List Nat} {n : Nat} (hlen : b.length = n)
    (hdesc : ∀ i, i < n → b.getD i 0 < MODULUS) : ∀ y ∈ b, y < MODULUS := by
  intro y hy
  obtain ⟨idx, hidx, hval⟩ := List.mem_iff_getElem.mp hy
  rw [← getD_of_lt hidx] at hval
  rw [← hval]
  exact hdesc idx (by omega)

theorem shift_pow_one (i : Nat) : (1 : Nat) <<< (i + 1) = 2 ^ (i + 1) :=
  Nat.one_shiftLeft _

theorem shift_pow_half (i : Nat) : (1 : Nat) <<< (i + 1) >>> 1 = 2 ^ i := by
  rw [shift_pow_one, Nat.shiftRight_one, Nat.pow_succ]
  omega

theorem nttLoops_fold_spec (h : Nat) (hh : h ≤ 23) (root : Nat)
    (HR : (root : F) ^ ((MODULUS - 1) / 2) = -1) (x : Nat → F) :
    ∀ s, s ≤ h → ∀ a1, a1.length = 2 ^ h →
      (∀ i, i < 2 ^ h → a1.getD i 0 = (specVal h 0 (root : F) x i).val) →
      ∃ b, (List.range s).foldlM
          (fun a i => nttStage a (2 ^ h) (1 <<< (i + 1)) (1 <<< (i + 1) >>> 1)
            (powerMod root ((MODULUS - 1) / (1 <<< (i + 1))) MODULUS)) a1 = some b ∧
        b.length = 2 ^ h ∧
        (∀ i, i < 2 ^ h → b.getD i 0 = (specVal h s (root : F) x i).val) := by
  intro s
  induction s with
  | zero =>
    intro _ a1 hlen hdesc
    exact ⟨a1, rfl, hlen, hdesc⟩
  | succ s ih =>
    intro hs1 a1 hlen hdesc
    obtain ⟨b, hfold, hblen, hbdesc⟩ := ih (by omega) a1 hlen hdesc
    have hblt : ∀ i, i < 2 ^ h → b.getD i 0 < MODULUS := by
      intro i hi
      rw [hbdesc i hi]
      exact ZMod.val_lt _
    have hbmem : ∀ y ∈ b, y < MODULUS := values_lt_of_desc hblen hblt
    have hsq1 : ∀ y ∈ b, y ≤ (MODULUS - 1) ^ 2 := by
      intro y hy
      have h1 := hbmem y hy
      have h2 : MODULUS - 1 ≤ (MODULUS - 1) ^ 2 := by
        rw [pow_two]
        exact Nat.le_mul_of_pos_left _ (by decide)
      omega
    have hdvd : 2 ^ (s + 1) ∣ 2 ^ h := pow_dvd_pow 2 (by omega)
    have hbase : powerMod root ((MODULUS - 1) / 2 ^ (s + 1)) MODULUS < MODULUS :=
      powerMod_lt _ _ MODULUS_two_le MODULUS_le
    obtain ⟨b2, hstage, hb2len, hb2mem, hb2desc⟩ :=
      nttStage_eq b (2 ^ h) (2 ^ (s + 1)) (2 ^ s)
        (powerMod root ((MODULUS - 1) / 2 ^ (s + 1)) MODULUS)
        (Nat.two_pow_pos s) (by rw [Nat.pow_succ]; ring) hdvd hblen hbase hsq1
        (fun _ => hbmem)
    refine ⟨b2, ?_, hb2len, ?_⟩
    · rw [List.range_succ, List.foldlM_append, hfold]
      simp only [List.foldlM_cons, List.foldlM_nil, Option.bind_eq_bind, Option.some_bind,
        Option.bind_some]
      rw [shift_pow_half, shift_pow_one, hstage]
      rfl
    · intro i hi
      have hps1 : (0:Nat) < 2 ^ (s + 1) := Nat.two_pow_pos _
      have hdm := Nat.div_add_mod i (2 ^ (s + 1))
      have hjlt : i % 2 ^ (s + 1) < 2 ^ (s + 1) := Nat.mod_lt _ hps1
      have hpow2 : (2:Nat) ^ (s + 1) = 2 * 2 ^ s := by rw [Nat.pow_succ]; ring
      have hcast : ∀ t, t < 2 ^ h → ((b.getD t 0 : Nat) : F) = specVal h s (root : F) x t := by
        intro t ht
        rw [hbdesc t ht, castF_val]
      rw [hb2desc i hi]
      by_cases hc : i % 2 ^ (s + 1) < 2 ^ s
      · rw [if_pos hc]
        have hsplit := specVal_split_A h s (by omega) hh (root : F) x (i / 2 ^ (s + 1))
          (i % 2 ^ (s + 1)) hc
        rw [show 2 ^ (s + 1) * (i / 2 ^ (s + 1)) + i % 2 ^ (s + 1) = i by omega] at hsplit
        rw [hsplit]
        have hipm : i + 2 ^ s < 2 ^ h := by
          have hd2 : 2 ^ s ∣ 2 ^ h := pow_dvd_pow 2 (by omega)
          have := partner_lt (show (2:Nat)^(s+1) = 2 * 2^s from hpow2) hdvd hi rfl hc
          exact this
        rw [castF_powerMod, hcast i hi, hcast (i + 2 ^ s) hipm]
      · rw [if_neg hc]
        have hjj : i % 2 ^ (s + 1) - 2 ^ s < 2 ^ s := by omega
        have hsplit := specVal_split_B h s (by omega) hh (root : F) HR x (i / 2 ^ (s + 1))
          (i % 2 ^ (s + 1) - 2 ^ s) hjj
        rw [show 2 ^ (s + 1) * (i / 2 ^ (s + 1)) + 2 ^ s + (i % 2 ^ (s + 1) - 2 ^ s) = i
          by omega] at hsplit
        rw [show 2 ^ (s + 1) * (i / 2 ^ (s + 1)) + (i % 2 ^ (s + 1) - 2 ^ s) = i - 2 ^ s
          by omega] at hsplit
        rw [hsplit]
        have him : 2 ^ s ≤ i := by
          have := Nat.mod_le i (2 ^ (s + 1))
          omega
        rw [castF_powerMod, hcast i hi, hcast (i - 2 ^ s) (by omega)]

theorem specVal_top (h : Nat) (rF : F) (x : Nat → F) (i : Nat) (hi : i < 2 ^ h) :
    specVal h h rF x i = dftF (2 ^ h) (rF ^ ((MODULUS - 1) / 2 ^ h)) x i := by
  unfold specVal dftF
  apply Finset.sum_congr rfl
  intro t _
  rw [Nat.sub_self, Nat.pow_zero, Nat.mul_one, Nat.div_eq_of_lt hi,
    Nat.mod_eq_of_lt hi, bit_reverse_zero_left, Nat.add_zero]

theorem ntt_unfold (a : List Nat) (n root : Nat) :
    ntt a n root = (bitrevSwapPass a n).bind (fun a1 => nttLoops a1 n (floorLog2 n) root) :=
  rfl

theorem ntt_dft (h : Nat) (hh : h ≤ 23) (root : Nat)
    (HR : (root : F) ^ ((MODULUS - 1) / 2) = -1)
    (a : List Nat) (hlen : a.length = 2 ^ h) (hvals : ∀ y ∈ a, y < MODULUS) :
    ∃ b, ntt a (2 ^ h) root = some b ∧ b.length = 2 ^ h ∧ (∀ y ∈ b, y < MODULUS) ∧
      ∀ i, i < 2 ^ h → b.getD i 0 =
        (dftF (2 ^ h) ((root : F) ^ ((MODULUS - 1) / 2 ^ h))
          (fun t => ((a.getD t 0 : Nat) : F)) i).val := by
  obtain ⟨a1, hpass, ha1len, ha1desc⟩ := bitrevSwapPass_eq h (2 ^ h) rfl a hlen
  have ha1spec : ∀ i, i < 2 ^ h →
      a1.getD i 0 = (specVal h 0 (root : F) (fun t => ((a.getD t 0 : Nat) : F)) i).val := by
    intro i hi
    rw [ha1desc i hi, specVal_zero]
    have hbr : revRec (2 ^ h) i = bit_reverse i h := revRec_eq_bit_reverse_aux h (2 ^ h) rfl i hi
    rw [hbr]
    have hblt : bit_reverse i h < 2 ^ h := bit_reverse_lt i h
    have hmem : a.getD (bit_reverse i h) 0 ∈ a := getD_mem (by omega)
    exact (ZMod.val_cast_of_lt (hvals _ hmem)).symm
  obtain ⟨b, hfold, hblen, hbdesc⟩ :=
    nttLoops_fold_spec h hh root HR (fun t => ((a.getD t 0 : Nat) : F)) h (le_refl h)
      a1 ha1len ha1spec
  refine ⟨b, ?_, hblen, ?_, ?_⟩
  · rw [ntt_unfold, hpass]
    show nttLoops a1 (2 ^ h) (floorLog2 (2 ^ h)) root = some b
    rw [floorLog2_two_pow]
    exact hfold
  · apply values_lt_of_desc hblen
    intro i hi
    rw [hbdesc i hi]
    exact ZMod.val_lt _
  · intro i hi
    rw [hbdesc i hi, specVal_top h (root : F) _ i hi]

/-! ### Facts about the primitive root 3 -/

theorem HR_three : ((PRIMITIVE_ROOT : Nat) : F) ^ ((MODULUS - 1) / 2) = -1 := by
  have h1 : powerMod PRIMITIVE_ROOT ((MODULUS - 1) / 2) MODULUS = MODULUS - 1 := by decide
  have h2 := castF_powerMod PRIMITIVE_ROOT ((MODULUS - 1) / 2)
  rw [h1] at h2
  rw [← h2, Nat.cast_sub (by decide : 1 ≤ MODULUS), ZMod.natCast_self]
  push_cast
  ring

theorem HR_inv :
    ((powerMod PRIMITIVE_ROOT (MODULUS - 2) MODULUS : Nat) : F) ^ ((MODULUS - 1) / 2) = -1 := by
  rw [castF_powerMod, ← pow_mul, Nat.mul_comm, pow_mul, HR_three]
  exact Odd.neg_one_pow (by rw [Nat.odd_iff]; decide)

theorem three_pow_modulus_sub_one : ((PRIMITIVE_ROOT : Nat) : F) ^ (MODULUS - 1) = 1 := by
  have h1 : MODULUS - 1 = (MODULUS - 1) / 2 * 2 := by decide
  rw [h1, pow_mul, HR_three]
  ring

theorem pow_card_sub_two (x : F) (hx : x ≠ 0) : x ^ (MODULUS - 2) = x⁻¹ := by
  have h1 : x ^ (MODULUS - 1) = 1 := ZMod.pow_card_sub_one_eq_one hx
  have h2 : MODULUS - 2 = MODULUS - 1 - 1 := by decide
  rw [h2, pow_sub₀ x hx (by decide : 1 ≤ MODULUS - 1), h1, pow_one, one_mul]

theorem three_ne_zero_F : ((PRIMITIVE_ROOT : Nat) : F) ≠ 0 := by
  intro hcon
  have := (ZMod.natCast_zmod_eq_zero_iff_dvd PRIMITIVE_ROOT MODULUS).mp hcon
  have h3 : MODULUS ≤ PRIMITIVE_ROOT := Nat.le_of_dvd (by decide) this
  revert h3
  decide

theorem omega_ne_zero (h : Nat) : ((PRIMITIVE_ROOT : Nat) : F) ^ ((MODULUS - 1) / 2 ^ h) ≠ 0 :=
  pow_ne_zero _ three_ne_zero_F

theorem omega_orderOf (h : Nat) (hh : h ≤ 23) :
    orderOf (((PRIMITIVE_ROOT : Nat) : F) ^ ((MODULUS - 1) / 2 ^ h)) = 2 ^ h := by
  obtain ⟨c, hc⟩ := two_pow_dvd_modulus_sub_one hh
  match h with
  | 0 =>
    have he : (MODULUS - 1) / 2 ^ 0 = MODULUS - 1 := by
      rw [Nat.pow_zero, Nat.div_one]
    rw [he, three_pow_modulus_sub_one, Nat.pow_zero, orderOf_one]
  | g + 1 =>
    have hps1 : (0:Nat) < 2 ^ (g + 1) := Nat.two_pow_pos _
    have e1 : (MODULUS - 1) / 2 ^ (g + 1) = c := by
      rw [hc]
      exact Nat.mul_div_cancel_left c hps1
    have ehalf : c * 2 ^ g = (MODULUS - 1) / 2 := by
      have h1 : MODULUS - 1 = (c * 2 ^ g) * 2 := by
        rw [hc, Nat.pow_succ]
        ring
      rw [h1, Nat.mul_div_cancel _ (by omega)]
    apply orderOf_eq_prime_pow
    · rw [e1, ← pow_mul, ehalf, HR_three]
      intro hcon
      have : ((-1 : F) = 1) := hcon
      have h2 : ((2 : Nat) : F) = 0 := by
        have := congrArg (· + (1:F)) this
        push_cast at this ⊢
        simpa [neg_add_cancel] using this.symm
      have := (ZMod.natCast_zmod_eq_zero_iff_dvd 2 MODULUS).mp h2
      have h3 : MODULUS ≤ 2 := Nat.le_of_dvd (by decide) this
      revert h3
      decide
    · rw [e1, ← pow_mul, show c * 2 ^ (g + 1) = MODULUS - 1 by rw [hc]; ring,
        three_pow_modulus_sub_one]

theorem omega_pow_eq_iff (h : Nat) (hh : h ≤ 23) {j k : Nat} (hj : j < 2 ^ h)
    (hk : k < 2 ^ h) :
    (((PRIMITIVE_ROOT : Nat) : F) ^ ((MODULUS - 1) / 2 ^ h)) ^ j =
      (((PRIMITIVE_ROOT : Nat) : F) ^ ((MODULUS - 1) / 2 ^ h)) ^ k ↔ j = k := by
  have hord := omega_orderOf h hh
  have hω0 : ((PRIMITIVE_ROOT : Nat) : F) ^ ((MODULUS - 1) / 2 ^ h) ≠ 0 := omega_ne_zero h
  constructor
  · intro heq
    rcases le_or_lt k j with hle | hlt
    · have h1 : (((PRIMITIVE_ROOT : Nat) : F) ^ ((MODULUS - 1) / 2 ^ h)) ^ (j - k) *
          (((PRIMITIVE_ROOT : Nat) : F) ^ ((MODULUS - 1) / 2 ^ h)) ^ k =
          (((PRIMITIVE_ROOT : Nat) : F) ^ ((MODULUS - 1) / 2 ^ h)) ^ j := by
        rw [← pow_add, show j - k + k = j by omega]
      have h2 : (((PRIMITIVE_ROOT : Nat) : F) ^ ((MODULUS - 1) / 2 ^ h)) ^ (j - k) *
          (((PRIMITIVE_ROOT : Nat) : F) ^ ((MODULUS - 1) / 2 ^ h)) ^ k =
          1 * (((PRIMITIVE_ROOT : Nat) : F) ^ ((MODULUS - 1) / 2 ^ h)) ^ k := by
        rw [h1, heq, one_mul]
      have h3 := mul_right_cancel₀ (pow_ne_zero k hω0) h2
      have h4 : 2 ^ h ∣ j - k := hord ▸ orderOf_dvd_iff_pow_eq_one.mpr h3
      rcases Nat.eq_zero_or_pos (j - k) with h5 | h5
      · omega
      · have := Nat.le_of_dvd h5 h4
        omega
    · have h1 : (((PRIMITIVE_ROOT : Nat) : F) ^ ((MODULUS - 1) / 2 ^ h)) ^ (k - j) *
          (((PRIMITIVE_ROOT : Nat) : F) ^ ((MODULUS - 1) / 2 ^ h)) ^ j =
          (((PRIMITIVE_ROOT : Nat) : F) ^ ((MODULUS - 1) / 2 ^ h)) ^ k := by
        rw [← pow_add, show k - j + j = k by omega]
      have h2 : (((PRIMITIVE_ROOT : Nat) : F) ^ ((MODULUS - 1) / 2 ^ h)) ^ (k - j) *
          (((PRIMITIVE_ROOT : Nat) : F) ^ ((MODULUS - 1) / 2 ^ h)) ^ j =
          1 * (((PRIMITIVE_ROOT : Nat) : F) ^ ((MODULUS - 1) / 2 ^ h)) ^ j := by
        rw [h1, ← heq, one_mul]
      have h3 := mul_right_cancel₀ (pow_ne_zero j hω0) h2
      have h4 : 2 ^ h ∣ k - j := hord ▸ orderOf_dvd_iff_pow_eq_one.mpr h3
      have h6 : 0 < k - j := by omega
      have := Nat.le_of_dvd h6 h4
      omega
  · intro hjk
    rw [hjk]

theorem mul_inv_eq_one_iff {u v : F} (hv : v ≠ 0) : u * v⁻¹ = 1 ↔ u = v := by
  constructor
  · intro h1
    have h2 := congrArg (· * v) h1
    simpa [mul_assoc, inv_mul_cancel₀ hv] using h2
  · intro h1
    rw [h1, mul_inv_cancel₀ hv]

theorem geom_sum_orthogonal {z : F} (n : Nat) (hz : z ^ n = 1) :
    ∑ i ∈ Finset.range n, z ^ i = if z = 1 then (n : F) else 0 := by
  by_cases h1 : z = 1
  · simp [h1]
  · rw [if_neg h1, geom_sum_eq h1, hz]
    simp

theorem dftF_congr {n : Nat} {ω : F} {y1 y2 : Nat → F} (i : Nat)
    (hy : ∀ j, j < n → y1 j = y2 j) : dftF n ω y1 i = dftF n ω y2 i := by
  unfold dftF
  apply Finset.sum_congr rfl
  intro j hj
  rw [hy j (Finset.mem_range.mp hj)]

theorem dft_inversion (h : Nat) (hh : h ≤ 23) (x : Nat → F) (k : Nat) (hk : k < 2 ^ h) :
    dftF (2 ^ h) ((((PRIMITIVE_ROOT : Nat) : F) ^ ((MODULUS - 1) / 2 ^ h))⁻¹)
      (fun i => dftF (2 ^ h) (((PRIMITIVE_ROOT : Nat) : F) ^ ((MODULUS - 1) / 2 ^ h)) x i) k =
      ((2 ^ h : Nat) : F) * x k := by
  have hω0 : ((PRIMITIVE_ROOT : Nat) : F) ^ ((MODULUS - 1) / 2 ^ h) ≠ 0 := omega_ne_zero h
  have hωN : (((PRIMITIVE_ROOT : Nat) : F) ^ ((MODULUS - 1) / 2 ^ h)) ^ 2 ^ h = 1 := by
    obtain ⟨c, hc⟩ := two_pow_dvd_modulus_sub_one hh
    have he : (MODULUS - 1) / 2 ^ h * 2 ^ h = MODULUS - 1 := by
      rw [hc, Nat.mul_div_cancel_left c (Nat.two_pow_pos h)]
      ring
    rw [← pow_mul, he, three_pow_modulus_sub_one]
  set ω : F := ((PRIMITIVE_ROOT : Nat) : F) ^ ((MODULUS - 1) / 2 ^ h) with hωdef
  unfold dftF
  simp only [Finset.sum_mul]
  rw [Finset.sum_comm]
  have hC : ∀ j ∈ Finset.range (2 ^ h),
      (∑ i ∈ Finset.range (2 ^ h), x j * ω ^ (i * j) * (ω⁻¹) ^ (k * i)) =
        x j * ∑ i ∈ Finset.range (2 ^ h), (ω ^ j * (ω ^ k)⁻¹) ^ i := by
    intro j _
    rw [Finset.mul_sum]
    apply Finset.sum_congr rfl
    intro i _
    have e1 : ω ^ (i * j) = (ω ^ j) ^ i := by rw [show i * j = j * i by ring, pow_mul]
    have e2 : (ω⁻¹) ^ (k * i) = ((ω ^ k)⁻¹) ^ i := by
      rw [inv_pow, pow_mul, ← inv_pow]
    rw [e1, e2, mul_assoc, ← mul_pow]
  rw [Finset.sum_congr rfl hC]
  have hD : ∀ j ∈ Finset.range (2 ^ h),
      x j * ∑ i ∈ Finset.range (2 ^ h), (ω ^ j * (ω ^ k)⁻¹) ^ i =
        if j = k then x j * ((2 ^ h : Nat) : F) else 0 := by
    intro j hj
    have hjlt : j < 2 ^ h := Finset.mem_range.mp hj
    have hzN : (ω ^ j * (ω ^ k)⁻¹) ^ 2 ^ h = 1 := by
      have z1 : (ω ^ j) ^ 2 ^ h = 1 := by
        rw [← pow_mul, show j * 2 ^ h = 2 ^ h * j by ring, pow_mul, hωN, one_pow]
      have z2 : ((ω ^ k)⁻¹) ^ 2 ^ h = 1 := by
        rw [inv_pow, ← pow_mul, show k * 2 ^ h = 2 ^ h * k by ring, pow_mul, hωN,
          one_pow, inv_one]
      rw [mul_pow, z1, z2, one_mul]
    rw [geom_sum_orthogonal (2 ^ h) hzN]
    by_cases hjk : j = k
    · have hz1 : ω ^ j * (ω ^ k)⁻¹ = 1 := by
        rw [hjk, mul_inv_cancel₀ (pow_ne_zero k hω0)]
      rw [if_pos hz1, if_pos hjk]
    · have hz1 : ¬(ω ^ j * (ω ^ k)⁻¹ = 1) := by
        intro hcon
        exact hjk ((omega_pow_eq_iff h hh hjlt hk).mp
          ((mul_inv_eq_one_iff (pow_ne_zero k hω0)).mp hcon))
      rw [if_neg hz1, if_neg hjk, mul_zero]
  rw [Finset.sum_congr rfl hD,
    Finset.sum_ite_eq' (Finset.range (2 ^ h)) k (fun j => x j * ((2 ^ h : Nat) : F)),
    if_pos (Finset.mem_range.mpr hk)]
  ring

theorem intt_eq (a : List Nat) (n root : Nat) :
    intt a n root = (ntt a n (powerMod root (MODULUS - 2) MODULUS)).bind
      (fun b => some (b.map
        (fun x => mul64 x (powerMod n (MODULUS - 2) MODULUS) % MODULUS))) := rfl

theorem two_pow_ne_zero_F (h : Nat) (_hh : h ≤ 23) : ((2 ^ h : Nat) : F) ≠ 0 := by
  intro hcon
  have hdvd := (ZMod.natCast_zmod_eq_zero_iff_dvd (2 ^ h) MODULUS).mp hcon
  have h2 : MODULUS ∣ 2 := MODULUS_prime.dvd_of_dvd_pow hdvd
  have h3 : MODULUS ≤ 2 := Nat.le_of_dvd (by decide) h2
  revert h3
  decide

theorem intt_of_dft (h : Nat) (hh : h ≤ 23) (b : List Nat) (x : Nat → F)
    (hblen : b.length = 2 ^ h) (hbvals : ∀ y ∈ b, y < MODULUS)
    (hbdesc : ∀ i, i < 2 ^ h → b.getD i 0 =
      (dftF (2 ^ h) (((PRIMITIVE_ROOT : Nat) : F) ^ ((MODULUS - 1) / 2 ^ h)) x i).val) :
    ∃ d, intt b (2 ^ h) PRIMITIVE_ROOT = some d ∧ d.length = 2 ^ h ∧
      ∀ i, i < 2 ^ h → d.getD i 0 = (x i).val := by
  obtain ⟨c, hc, hclen, hcvals, hcdesc⟩ :=
    ntt_dft h hh (powerMod PRIMITIVE_ROOT (MODULUS - 2) MODULUS) HR_inv b hblen hbvals
  have hωinv : ((powerMod PRIMITIVE_ROOT (MODULUS - 2) MODULUS : Nat) : F) ^
      ((MODULUS - 1) / 2 ^ h) =
      (((PRIMITIVE_ROOT : Nat) : F) ^ ((MODULUS - 1) / 2 ^ h))⁻¹ := by
    rw [castF_powerMod, pow_card_sub_two _ three_ne_zero_F, inv_pow]
  have hNinv : ((powerMod (2 ^ h) (MODULUS - 2) MODULUS : Nat) : F) =
      (((2 ^ h : Nat) : F))⁻¹ := by
    rw [castF_powerMod, pow_card_sub_two _ (two_pow_ne_zero_F h hh)]
  refine ⟨c.map (fun y => mul64 y (powerMod (2 ^ h) (MODULUS - 2) MODULUS) % MODULUS),
    ?_, by simp [hclen], ?_⟩
  · rw [intt_eq, hc]
    rfl
  · intro i hi
    have hilen : i < (c.map
        (fun y => mul64 y (powerMod (2 ^ h) (MODULUS - 2) MODULUS) % MODULUS)).length := by
      simp [hclen]
      omega
    rw [getD_of_lt hilen, List.getElem_map]
    have hcilen : i < c.length := by omega
    rw [← getD_of_lt hcilen, hcdesc i hi]
    have hdinner : dftF (2 ^ h)
        (((powerMod PRIMITIVE_ROOT (MODULUS - 2) MODULUS : Nat) : F) ^ ((MODULUS - 1) / 2 ^ h))
        (fun t => ((b.getD t 0 : Nat) : F)) i =
        ((2 ^ h : Nat) : F) * x i := by
      rw [hωinv]
      rw [dftF_congr i (fun j hj => by rw [hbdesc j hj, castF_val])]
      exact dft_inversion h hh x i hi
    rw [hdinner]
    have hnIlt : powerMod (2 ^ h) (MODULUS - 2) MODULUS < MODULUS :=
      powerMod_lt _ _ MODULUS_two_le MODULUS_le
    have hvlt : (((2 ^ h : Nat) : F) * x i).val < MODULUS := ZMod.val_lt _
    have hmul : (((2 ^ h : Nat) : F) * x i).val *
        powerMod (2 ^ h) (MODULUS - 2) MODULUS < U64SIZE := by
      calc (((2 ^ h : Nat) : F) * x i).val * powerMod (2 ^ h) (MODULUS - 2) MODULUS ≤
          MODULUS * MODULUS := Nat.mul_le_mul (le_of_lt hvlt) (le_of_lt hnIlt)
        _ < U64SIZE := mod_mul_bound
    rw [show mul64 (((2 ^ h : Nat) : F) * x i).val (powerMod (2 ^ h) (MODULUS - 2) MODULUS) =
      (((2 ^ h : Nat) : F) * x i).val * powerMod (2 ^ h) (MODULUS - 2) MODULUS
      from mul64_eq hmul]
    rw [mod_eq_val]
    have hN0 : ((2 ^ h : Nat) : F) ≠ 0 := two_pow_ne_zero_F h hh
    have hFeq : ((((((2 ^ h : Nat) : F) * x i).val *
        powerMod (2 ^ h) (MODULUS - 2) MODULUS : Nat)) : F) = x i := by
      rw [Nat.cast_mul, castF_val, hNinv, mul_comm (((2 ^ h : Nat) : F)) (x i),
        mul_assoc, mul_inv_cancel₀ hN0, mul_one]
    rw [hFeq]

/-! ### Claim theorems -/

/-- **C1**: Round-trip: for every sequence `a` of power-of-two length `n`
(`n = 2^h`, `h ≤ 23`, so `n` divides `MODULUS - 1`) whose elements are fully
reduced mod `MODULUS`, `intt (ntt a n PRIMITIVE_ROOT) n PRIMITIVE_ROOT`
reproduces `a` exactly, element for element. -/
theorem c1_roundtrip (a : List Nat) (h n : Nat) (hn : n = 2 ^ h) (hh : h ≤ 23)
    (hlen : a.length = n) (hvals : ∀ y ∈ a, y < MODULUS) :
    (ntt a n PRIMITIVE_ROOT).bind (fun b => intt b n PRIMITIVE_ROOT) = some a := by
  subst hn
  obtain ⟨b, hb, hblen, hbvals, hbdesc⟩ := ntt_dft h hh PRIMITIVE_ROOT HR_three a hlen hvals
  rw [hb, Option.some_bind]
  obtain ⟨d, hd, hdlen, hddesc⟩ := intt_of_dft h hh b (fun t => ((a.getD t 0 : Nat) : F))
    hblen hbvals hbdesc
  rw [hd, Option.some_inj]
  apply List.ext_getElem (by omega)
  intro i h1 h2
  rw [← getD_of_lt h1, ← getD_of_lt h2, hddesc i (by omega)]
  exact ZMod.val_cast_of_lt (hvals _ (getD_mem h2))

theorem c1_roundtrip_witness :
    (ntt [1, 2, 3, 4, 5, 6, 7, 8] 8 PRIMITIVE_ROOT).bind
      (fun b => intt b 8 PRIMITIVE_ROOT) = some [1, 2, 3, 4, 5, 6, 7, 8] :=
  c1_roundtrip [1, 2, 3, 4, 5, 6, 7, 8] 3 8 (by decide) (by decide) (by decide) (by decide)

/-- **C5**: Bit-reversal mapping correctness: for every power-of-two `n = 2^h`
and every `i < n`, the incrementally built mapping
`rev[i] = rev[i>>1]>>1 | (n/2 if i odd)` (the recurrence `revRec`) agrees with
the from-scratch reference `bit_reverse i h`. -/
theorem c5_revRec_eq_bit_reverse (n h i : Nat) (hn : n = 2 ^ h) (hi : i < n) :
    revRec n i = bit_reverse i h :=
  revRec_eq_bit_reverse_aux h n hn i hi

theorem c5_revRec_eq_bit_reverse_witness : revRec 8 5 = bit_reverse 5 3 :=
  c5_revRec_eq_bit_reverse 8 3 5 (by decide) (by decide)

/-- **C7**: Bit-reversal involution: the in-place swap pass (swapping `i` with
`rev[i]` exactly when `i < rev[i]`) is self-inverse for every power-of-two
length: applying it twice returns the sequence to its original ordering. -/
theorem c7_bitrev_pass_involutive (a : List Nat) (h n : Nat) (hn : n = 2 ^ h)
    (hlen : a.length = n) :
    (bitrevSwapPass a n).bind (fun b => bitrevSwapPass b n) = some a := by
  obtain ⟨b, hb, hblen, hbdesc⟩ := bitrevSwapPass_eq h n hn a hlen
  rw [hb, Option.some_bind]
  obtain ⟨c, hc, hclen, hcdesc⟩ := bitrevSwapPass_eq h n hn b hblen
  rw [hc, Option.some_inj]
  apply List.ext_getElem (by omega)
  intro i h1 h2
  rw [← getD_of_lt h1, ← getD_of_lt h2, hcdesc i (by omega),
    hbdesc _ (revRec_lt h n i hn (by omega)), revRec_involution h n i hn (by omega)]

theorem c7_bitrev_pass_involutive_witness :
    (bitrevSwapPass [10, 11, 12, 13] 4).bind (fun b => bitrevSwapPass b 4) =
      some [10, 11, 12, 13] :=
  c7_bitrev_pass_involutive [10, 11, 12, 13] 2 4 (by decide) (by decide)

/-- **C4** counterexample: as stated the claim fails. At `modulus = 1` with
exponent 0, `power_mod` returns 1, which is neither reduced (`1 < 1` is false)
nor equal to `0^0 % 1 = 0`; and for a modulus close to `2^64` the `u64`
products wrap, giving a wrong value. -/
theorem c4_counterexample :
    powerMod 0 0 1 = 1 ∧ ¬ powerMod 0 0 1 < 1 ∧ powerMod 0 0 1 ≠ 0 ^ 0 % 1 ∧
      powerMod (2 ^ 32 + 1) 2 (2 ^ 64 - 1) ≠ (2 ^ 32 + 1) ^ 2 % (2 ^ 64 - 1) := by
  refine ⟨rfl, by decide, by decide, by decide⟩

/-- **C4** amended: for every base, every exponent, and every modulus `m` with
`2 ≤ m ≤ 2^32` (so that no `u64` product wraps), `power_mod` returns
`base ^ exponent % m`, a fully reduced value in `[0, m)`; in particular
exponent 0 yields 1 for any base. -/
theorem c4_amended (b e m : Nat) (hm : 2 ≤ m) (hm32 : m ≤ 2 ^ 32) :
    powerMod b e m = b ^ e % m ∧ powerMod b e m < m ∧ powerMod b 0 m = 1 :=
  ⟨powerMod_correct b e hm hm32, powerMod_lt b e hm hm32, rfl⟩

theorem c4_amended_witness :
    powerMod 3 5 7 = 3 ^ 5 % 7 ∧ powerMod 3 5 7 < 7 ∧ powerMod 3 0 7 = 1 :=
  c4_amended 3 5 7 (by decide) (by decide)

/-- **C3**: the code contradicts its own assertion (source line 159
`assert_eq!(coefficients, og)`): applying `intt` to `alt_ntt`'s output on the
program's own test vector `[1,…,8]` does not recover the input. -/
theorem c3_alt_roundtrip_fails :
    (altNtt [1, 2, 3, 4, 5, 6, 7, 8] 8 PRIMITIVE_ROOT).bind
      (fun b => intt b 8 PRIMITIVE_ROOT) ≠ some [1, 2, 3, 4, 5, 6, 7, 8] := by
  decide

/-- **C8**: Concrete convolution scenario: with `a = [4,1,4,2,1,3,5,6]`,
`b = [6,1,8,0,3,3,9,8]`, `n = 8` and root 3, the driver (forward-transform
both, pointwise multiply, inverse-transform) yields exactly
`[123,120,106,92,139,144,140,124]`. -/
theorem c8_concrete_convolution :
    convolveViaNtt [4, 1, 4, 2, 1, 3, 5, 6] [6, 1, 8, 0, 3, 3, 9, 8] 8 =
      some [123, 120, 106, 92, 139, 144, 140, 124] := by
  decide


/-! ### Non-power-of-two lengths: the transform always panics (C6) -/

theorem log2Aux_bounds :
    ∀ fuel m acc, 1 ≤ m → m ≤ fuel →
      ∃ g, log2Aux fuel m acc = acc + g ∧ 2 ^ g ≤ m ∧ m < 2 ^ (g + 1) := by
  intro fuel
  induction fuel with
  | zero => intro m acc h1 h2; omega
  | succ f ih =>
    intro m acc h1 h2
    by_cases hm : 1 < m
    · have hm2 : m >>> 1 = m / 2 := by
        rw [Nat.shiftRight_eq_div_pow]
      obtain ⟨g, hg, hlo, hhi⟩ := ih (m / 2) (acc + 1) (by omega) (by omega)
      have hstep : log2Aux (f + 1) m acc = log2Aux f (m / 2) (acc + 1) := by
        simp only [log2Aux, if_pos hm, hm2]
      refine ⟨g + 1, ?_, ?_, ?_⟩
      · rw [hstep, hg]
        omega
      · have he : 2 ^ (g + 1) = 2 * 2 ^ g := by ring
        omega
      · have he : 2 ^ (g + 1 + 1) = 2 * 2 ^ (g + 1) := by ring
        omega
    · refine ⟨0, ?_, by omega, by omega⟩
      simp only [log2Aux, if_neg hm]
      omega

theorem floorLog2_bounds (n : Nat) (h1 : 1 ≤ n) :
    2 ^ floorLog2 n ≤ n ∧ n < 2 ^ (floorLog2 n + 1) := by
  obtain ⟨g, hg, hlo, hhi⟩ := log2Aux_bounds n n 0 h1 (le_refl n)
  rw [Nat.zero_add] at hg
  unfold floorLog2
  rw [hg]
  exact ⟨hlo, hhi⟩

theorem not_pow2_of_between {n g : Nat} (h1 : 2 ^ g < n) (h2 : n < 2 ^ (g + 1)) :
    ∀ k, n ≠ 2 ^ k := by
  intro k hk
  subst hk
  rcases Nat.lt_or_ge k (g + 1) with hlt | hge
  · have : 2 ^ k ≤ 2 ^ g := Nat.pow_le_pow_right (by decide) (by omega)
    omega
  · have : 2 ^ (g + 1) ≤ 2 ^ k := Nat.pow_le_pow_right (by decide) hge
    omega

theorem listSwap_length {a b : List Nat} {i j : Nat} (h : listSwap a i j = some b) :
    b.length = a.length := by
  simp only [listSwap, Option.bind_eq_bind, Option.bind_eq_some, Option.pure_def,
    Option.some_inj] at h
  obtain ⟨x, hx, y, hy, hb⟩ := h
  subst hb
  simp

theorem listWrite_length {a b : List Nat} {i v : Nat} (h : listWrite a i v = some b) :
    b.length = a.length := by
  unfold listWrite at h
  split at h
  · rw [Option.some_inj] at h
    subst h
    simp
  · exact absurd h (by simp)

theorem revSwapStep_length {n : Nat} {st st' : List Nat × List Nat} {i : Nat}
    (h : revSwapStep n st i = some st') : st'.2.length = st.2.length := by
  unfold revSwapStep at h
  rcases hp : st.1[i >>> 1]? with _ | p <;> rw [hp] at h
  · exact absurd h (by simp)
  · simp only [Option.bind_eq_bind, Option.some_bind] at h
    rcases hw : listWrite st.1 i (p >>> 1 ||| if i &&& 1 = 1 then n >>> 1 else 0)
      with _ | rev <;> rw [hw] at h
    · exact absurd h (by simp)
    · simp only [Option.some_bind] at h
      by_cases hc : i < p >>> 1 ||| if i &&& 1 = 1 then n >>> 1 else 0
      · rw [if_pos hc] at h
        rcases hs : listSwap st.2 i (p >>> 1 ||| if i &&& 1 = 1 then n >>> 1 else 0)
          with _ | a2 <;> rw [hs] at h
        · exact absurd h (by simp)
        · simp only [Option.some_bind, Option.pure_def, Option.some_inj] at h
          rw [← h]
          exact listSwap_length hs
      · rw [if_neg hc] at h
        simp only [Option.pure_def, Option.some_bind, Option.some_inj] at h
        rw [← h]

theorem pass_fold_length (n : Nat) (l : List Nat) :
    ∀ {st st' : List Nat × List Nat},
      l.foldlM (revSwapStep n) st = some st' → st'.2.length = st.2.length := by
  induction l with
  | nil =>
    intro st st' h
    rw [List.foldlM_nil, Option.pure_def, Option.some_inj] at h
    rw [← h]
  | cons i l ih =>
    intro st st' h
    rw [List.foldlM_cons] at h
    rcases hs : revSwapStep n st i with _ | st1 <;> rw [hs] at h
    · exact absurd h (by simp)
    · simp only [Option.bind_eq_bind, Option.some_bind] at h
      rw [ih h, revSwapStep_length hs]

theorem bitrevSwapPass_length {a b : List Nat} {n : Nat}
    (h : bitrevSwapPass a n = some b) : b.length = a.length := by
  unfold bitrevSwapPass at h
  rcases hf : (List.range n).foldlM (revSwapStep n) (List.replicate n 0, a) with _ | st <;>
    rw [hf] at h
  · exact absurd h (by simp)
  · simp only [Option.map_some', Option.some_inj] at h
    rw [← h]
    exact pass_fold_length n (List.range n) hf

theorem butterflyStep_length {m w j : Nat} {a b : List Nat} {k : Nat}
    (h : butterflyStep m w j a k = some b) : b.length = a.length := by
  simp only [butterflyStep, Option.bind_eq_bind, Option.bind_eq_some] at h
  obtain ⟨u, hu, tv, htv, a1, ha1, hb⟩ := h
  rw [listWrite_length hb, listWrite_length ha1]

theorem butterflyStep_oob {m w j : Nat} {a : List Nat} {k : Nat}
    (h : a.length ≤ k + j + m) : butterflyStep m w j a k = none := by
  unfold butterflyStep
  rcases hu : a[k + j]? with _ | u
  · rfl
  · simp only [Option.bind_eq_bind, Option.some_bind]
    rw [List.getElem?_eq_none h]
    rfl

theorem bfold_length {m w j : Nat} (l : List Nat) :
    ∀ {a b : List Nat}, l.foldlM (butterflyStep m w j) a = some b →
      b.length = a.length := by
  induction l with
  | nil =>
    intro a b h
    rw [List.foldlM_nil, Option.pure_def, Option.some_inj] at h
    rw [← h]
  | cons k l ih =>
    intro a b h
    rw [List.foldlM_cons] at h
    rcases hs : butterflyStep m w j a k with _ | a1 <;> rw [hs] at h
    · exact absurd h (by simp)
    · simp only [Option.bind_eq_bind, Option.some_bind] at h
      rw [ih h, butterflyStep_length hs]

theorem nttStageJ_length {n mh m base : Nat} {st st' : List Nat × Nat} {j : Nat}
    (h : nttStageJ n mh m base st j = some st') : st'.1.length = st.1.length := by
  simp only [nttStageJ, Option.bind_eq_bind, Option.bind_eq_some, Option.pure_def,
    Option.some_inj] at h
  obtain ⟨a, ha, hst⟩ := h
  rw [← hst]
  exact bfold_length _ ha

theorem jfold_length {n mh m base : Nat} (l : List Nat) :
    ∀ {st st' : List Nat × Nat},
      l.foldlM (nttStageJ n mh m base) st = some st' → st'.1.length = st.1.length := by
  induction l with
  | nil =>
    intro st st' h
    rw [List.foldlM_nil, Option.pure_def, Option.some_inj] at h
    rw [← h]
  | cons j l ih =>
    intro st st' h
    rw [List.foldlM_cons] at h
    rcases hs : nttStageJ n mh m base st j with _ | st1 <;> rw [hs] at h
    · exact absurd h (by simp)
    · simp only [Option.bind_eq_bind, Option.some_bind] at h
      rw [ih h, nttStageJ_length hs]

theorem nttStage_length {a b : List Nat} {n mh m base : Nat}
    (h : nttStage a n mh m base = some b) : b.length = a.length := by
  unfold nttStage at h
  rcases hf : (List.range m).foldlM (nttStageJ n mh m base) (a, 1) with _ | st <;>
    rw [hf] at h
  · exact absurd h (by simp)
  · simp only [Option.map_some', Option.some_inj] at h
    rw [← h]
    exact jfold_length _ hf

theorem nttStage_oob (b : List Nat) (n mh m base : Nat) (hm : 1 ≤ m) (hmh : mh = 2 * m)
    (hlow : mh < n) (hhigh : n < 2 * mh) (hlen : b.length = n) :
    nttStage b n mh m base = none := by
  have hcnt : (n + mh - 1) / mh = 2 := Nat.div_eq_of_lt_le (by omega) (by omega)
  have hsl : stepList n mh = [0, mh] := by
    unfold stepList
    rw [hcnt]
    simp [List.range']
  have hr : List.range m = List.range (m - 1) ++ [m - 1] := by
    conv_lhs => rw [show m = (m - 1) + 1 by omega]
    rw [List.range_succ]
  unfold nttStage
  rw [hr, List.foldlM_append]
  rcases hf : (List.range (m - 1)).foldlM (nttStageJ n mh m base) (b, 1) with _ | st
  · rfl
  · simp only [Option.bind_eq_bind, Option.some_bind, List.foldlM_cons, List.foldlM_nil]
    have hstl : st.1.length = n := by rw [jfold_length _ hf, hlen]
    have hJ : nttStageJ n mh m base st (m - 1) = none := by
      unfold nttStageJ
      rw [hsl]
      simp only [List.foldlM_cons, List.foldlM_nil, Option.bind_eq_bind]
      rcases h0 : butterflyStep m st.2 (m - 1) st.1 0 with _ | c
      · rfl
      · simp only [Option.some_bind]
        have hcl : c.length = n := by rw [butterflyStep_length h0, hstl]
        rw [butterflyStep_oob (by omega : c.length ≤ mh + (m - 1) + m)]
        rfl
    rw [hJ]
    rfl

theorem loopsFold_length {n root : Nat} (l : List Nat) :
    ∀ {a b : List Nat},
      l.foldlM (fun a i => nttStage a n (1 <<< (i + 1)) (1 <<< (i + 1) >>> 1)
        (powerMod root ((MODULUS - 1) / (1 <<< (i + 1))) MODULUS)) a = some b →
      b.length = a.length := by
  induction l with
  | nil =>
    intro a b h
    rw [List.foldlM_nil, Option.pure_def, Option.some_inj] at h
    rw [← h]
  | cons i l ih =>
    intro a b h
    rw [List.foldlM_cons] at h
    rcases hs : nttStage a n (1 <<< (i + 1)) (1 <<< (i + 1) >>> 1)
        (powerMod root ((MODULUS - 1) / (1 <<< (i + 1))) MODULUS) with _ | a1 <;>
      rw [hs] at h
    · exact absurd h (by simp)
    · simp only [Option.bind_eq_bind, Option.some_bind] at h
      rw [ih h, nttStage_length hs]

/-- **C6** counterexample: as stated the claim is false. For `n = 3` (not a
power of two) the transform does not complete: the last butterfly stage reads
`a[k+j+m]` past the end of the slice and the program panics (index out of
bounds), modelled here as `none`. -/
theorem c6_counterexample : ntt [1, 2, 3] 3 PRIMITIVE_ROOT = none := by decide

/-- **C6** amended: for every sequence whose length `n ≥ 1` is not a power of
two, `ntt` never completes: the butterfly stage for the largest block size
`2^⌊log2 n⌋ < n` always indexes past the end of the slice, so the program
panics (out-of-bounds) instead of silently computing wrong values. -/
theorem c6_amended (a : List Nat) (n root : Nat) (h1 : 1 ≤ n)
    (hnp : ∀ k, n ≠ 2 ^ k) (hlen : a.length = n) : ntt a n root = none := by
  obtain ⟨hlo, hhi⟩ := floorLog2_bounds n h1
  have hstrict : 2 ^ floorLog2 n < n := lt_of_le_of_ne hlo (hnp (floorLog2 n)).symm
  have hg1 : 1 ≤ floorLog2 n := by
    by_contra hc
    have hz : floorLog2 n = 0 := by omega
    rw [hz] at hstrict hhi
    norm_num at hstrict hhi
    omega
  rw [ntt_unfold]
  rcases hp : bitrevSwapPass a n with _ | a1
  · rfl
  · simp only [Option.bind_eq_bind, Option.some_bind]
    have ha1 : a1.length = n := by rw [bitrevSwapPass_length hp, hlen]
    unfold nttLoops
    have hr : List.range (floorLog2 n) =
        List.range (floorLog2 n - 1) ++ [floorLog2 n - 1] := by
      conv_lhs => rw [show floorLog2 n = (floorLog2 n - 1) + 1 by omega]
      rw [List.range_succ]
    rw [hr, List.foldlM_append]
    rcases hf : (List.range (floorLog2 n - 1)).foldlM
        (fun a i => nttStage a n (1 <<< (i + 1)) (1 <<< (i + 1) >>> 1)
          (powerMod root ((MODULUS - 1) / (1 <<< (i + 1))) MODULUS)) a1 with _ | b
    · rfl
    · simp only [Option.bind_eq_bind, Option.some_bind, List.foldlM_cons, List.foldlM_nil]
      have hbl : b.length = n := by rw [loopsFold_length _ hf, ha1]
      have hee : (floorLog2 n - 1) + 1 = floorLog2 n := by omega
      rw [shift_pow_half, shift_pow_one, hee]
      have hmh : 2 ^ floorLog2 n = 2 * 2 ^ (floorLog2 n - 1) := by
        conv_lhs => rw [show floorLog2 n = (floorLog2 n - 1) + 1 by omega]
        ring
      have hhigh : n < 2 * 2 ^ floorLog2 n := by
        have he2 : 2 ^ (floorLog2 n + 1) = 2 * 2 ^ floorLog2 n := by ring
        omega
      rw [nttStage_oob b n (2 ^ floorLog2 n) (2 ^ (floorLog2 n - 1)) _
        Nat.one_le_two_pow hmh hstrict hhigh hbl]
      rfl

theorem c6_amended_witness : ntt [9, 9, 9, 9, 9] 5 7 = none :=
  c6_amended [9, 9, 9, 9, 9] 5 7 (by decide)
    (not_pow2_of_between (by decide : 2 ^ 2 < 5) (by decide : 5 < 2 ^ (2 + 1)))
    (by decide)

/-! ### The reduction invariant (C9) -/

theorem nttLoops_bound (n root : Nat) (l : List Nat) :
    ∀ a : List Nat, (∀ i ∈ l, 2 ^ (i + 1) ∣ n) → a.length = n → (∀ y ∈ a, y < MODULUS) →
      ∃ b, l.foldlM (fun a i => nttStage a n (1 <<< (i + 1)) (1 <<< (i + 1) >>> 1)
          (powerMod root ((MODULUS - 1) / (1 <<< (i + 1))) MODULUS)) a = some b ∧
        b.length = n ∧ (∀ y ∈ b, y < MODULUS) := by
  induction l with
  | nil =>
    intro a _ hlen hvals
    exact ⟨a, rfl, hlen, hvals⟩
  | cons i l ih =>
    intro a hdvd hlen hvals
    have hv1 : ∀ x ∈ a, x ≤ (MODULUS - 1) ^ 2 := by
      intro x hx
      have h1 := hvals x hx
      have h2 : MODULUS - 1 ≤ (MODULUS - 1) ^ 2 := Nat.le_self_pow (by decide) _
      omega
    obtain ⟨b1, hstage, hb1len, hb1mem, _⟩ := nttStage_eq a n (2 ^ (i + 1)) (2 ^ i)
      (powerMod root ((MODULUS - 1) / 2 ^ (i + 1)) MODULUS)
      Nat.one_le_two_pow (by ring) (hdvd i (List.mem_cons_self i l)) hlen
      (powerMod_lt _ _ MODULUS_two_le MODULUS_le) hv1 (fun _ => hvals)
    obtain ⟨b, hfold, hblen, hbvals⟩ :=
      ih b1 (fun j hj => hdvd j (List.mem_cons_of_mem i hj)) hb1len hb1mem
    refine ⟨b, ?_, hblen, hbvals⟩
    rw [List.foldlM_cons, shift_pow_half, shift_pow_one, hstage]
    simp only [Option.bind_eq_bind, Option.some_bind]
    exact hfold

theorem ntt_bound (a : List Nat) (h n root : Nat) (hn : n = 2 ^ h)
    (hlen : a.length = n) (hvals : ∀ y ∈ a, y < MODULUS) :
    ∃ b, ntt a n root = some b ∧ b.length = n ∧ ∀ y ∈ b, y < MODULUS := by
  subst hn
  obtain ⟨a1, hpass, ha1len, ha1desc⟩ := bitrevSwapPass_eq h (2 ^ h) rfl a hlen
  have ha1vals : ∀ y ∈ a1, y < MODULUS := by
    apply values_lt_of_desc ha1len
    intro i hi
    rw [ha1desc i hi]
    exact hvals _ (getD_mem (by rw [hlen]; exact revRec_lt h (2 ^ h) i rfl hi))
  have hdvd : ∀ i ∈ List.range h, 2 ^ (i + 1) ∣ 2 ^ h := by
    intro i hi
    exact pow_dvd_pow 2 (by have := List.mem_range.mp hi; omega)
  obtain ⟨b, hfold, hblen, hbvals⟩ :=
    nttLoops_bound (2 ^ h) root (List.range h) a1 hdvd ha1len ha1vals
  refine ⟨b, ?_, hblen, hbvals⟩
  rw [ntt_unfold, hpass]
  show nttLoops a1 (2 ^ h) (floorLog2 (2 ^ h)) root = some b
  rw [floorLog2_two_pow]
  exact hfold

/-- **C9**: Reduction invariant: for every power-of-two `n = 2^h` and every
input whose elements all lie in `[0, MODULUS)`, both `ntt` and `intt` complete
(no overflow or panic) and return sequences of the same length whose elements
again all lie in `[0, MODULUS)` — every stored and returned value stays fully
reduced modulo `MODULUS` through both transforms. -/
theorem c9_reduction_invariant (a : List Nat) (h n root : Nat) (hn : n = 2 ^ h)
    (hlen : a.length = n) (hvals : ∀ y ∈ a, y < MODULUS) :
    (∃ b, ntt a n root = some b ∧ b.length = n ∧ ∀ y ∈ b, y < MODULUS) ∧
    (∃ c, intt a n root = some c ∧ c.length = n ∧ ∀ y ∈ c, y < MODULUS) := by
  refine ⟨ntt_bound a h n root hn hlen hvals, ?_⟩
  obtain ⟨c0, hc0, hc0len, hc0vals⟩ :=
    ntt_bound a h n (powerMod root (MODULUS - 2) MODULUS) hn hlen hvals
  refine ⟨c0.map (fun x => mul64 x (powerMod n (MODULUS - 2) MODULUS) % MODULUS),
    ?_, ?_, ?_⟩
  · rw [intt_eq, hc0]
    rfl
  · rw [List.length_map, hc0len]
  · intro y hy
    obtain ⟨x, hx, hxy⟩ := List.mem_map.mp hy
    rw [← hxy]
    exact Nat.mod_lt _ (by decide)

theorem c9_reduction_invariant_witness :
    (∃ b, ntt [5, 6, 7, 9] 4 3 = some b ∧ b.length = 4 ∧ ∀ y ∈ b, y < MODULUS) ∧
    (∃ c, intt [5, 6, 7, 9] 4 3 = some c ∧ c.length = 4 ∧ ∀ y ∈ c, y < MODULUS) :=
  c9_reduction_invariant [5, 6, 7, 9] 2 4 3 (by decide) (by decide) (by decide)

/-! ### Unreduced inputs and the first stage (C10) -/

theorem listSwap_map (a : List Nat) (i j : Nat) (f : Nat → Nat) :
    listSwap (a.map f) i j = (listSwap a i j).map (List.map f) := by
  unfold listSwap
  rw [List.getElem?_map, List.getElem?_map]
  rcases hi : a[i]? with _ | x
  · rfl
  · rcases hj : a[j]? with _ | y
    · rfl
    · simp only [Option.map_some', Option.some_bind, Option.bind_eq_bind, Option.pure_def,
        Option.some_inj, List.map_set]

theorem listWrite_map (a : List Nat) (i v : Nat) (f : Nat → Nat) :
    listWrite (a.map f) i (f v) = (listWrite a i v).map (List.map f) := by
  unfold listWrite
  rw [List.length_map]
  split
  · simp [List.map_set]
  · rfl

theorem revSwapStep_map (n : Nat) (f : Nat → Nat) (rev s : List Nat) (i : Nat) :
    revSwapStep n (rev, s.map f) i =
      (revSwapStep n (rev, s) i).map (fun st => (st.1, st.2.map f)) := by
  simp only [revSwapStep]
  rcases hp : rev[i >>> 1]? with _ | p
  · rfl
  · simp only [Option.bind_eq_bind, Option.some_bind]
    rcases hw : listWrite rev i (p >>> 1 ||| if i &&& 1 = 1 then n >>> 1 else 0)
      with _ | rev2
    · rfl
    · simp only [Option.some_bind]
      by_cases hc : i < p >>> 1 ||| if i &&& 1 = 1 then n >>> 1 else 0
      · rw [if_pos hc, if_pos hc, listSwap_map]
        rcases hs : listSwap s i (p >>> 1 ||| if i &&& 1 = 1 then n >>> 1 else 0)
          with _ | s2
        · rfl
        · simp only [Option.map_some', Option.some_bind]
          rfl
      · rw [if_neg hc, if_neg hc]
        rfl

theorem passFold_map (n : Nat) (f : Nat → Nat) (l : List Nat) :
    ∀ rev s : List Nat,
      l.foldlM (revSwapStep n) (rev, s.map f) =
        (l.foldlM (revSwapStep n) (rev, s)).map (fun st => (st.1, st.2.map f)) := by
  induction l with
  | nil => intro rev s; rfl
  | cons i l ih =>
    intro rev s
    rw [List.foldlM_cons, List.foldlM_cons, revSwapStep_map]
    rcases hs : revSwapStep n (rev, s) i with _ | st
    · rfl
    · simp only [Option.map_some', Option.bind_eq_bind, Option.some_bind]
      have hih := ih st.1 st.2
      rw [Prod.mk.eta] at hih
      exact hih

theorem bitrevSwapPass_map (a : List Nat) (n : Nat) (f : Nat → Nat) :
    bitrevSwapPass (a.map f) n = (bitrevSwapPass a n).map (List.map f) := by
  unfold bitrevSwapPass
  rw [passFold_map]
  rcases hs : (List.range n).foldlM (revSwapStep n) (List.replicate n 0, a) with _ | st
  · rfl
  · simp only [Option.map_some']

theorem nttStage1_map_mod (a : List Nat) (n base : Nat) (hdvd : 2 ∣ n)
    (hlen : a.length = n) (hbase : base < MODULUS)
    (hv1 : ∀ x ∈ a, x ≤ (MODULUS - 1) ^ 2) :
    nttStage (a.map (· % MODULUS)) n 2 1 base = nttStage a n 2 1 base := by
  have hv1m : ∀ x ∈ a.map (· % MODULUS), x ≤ (MODULUS - 1) ^ 2 := by
    intro x hx
    obtain ⟨y, hy, hxy⟩ := List.mem_map.mp hx
    have h1 : y % MODULUS < MODULUS := Nat.mod_lt _ (by decide)
    have h2 : MODULUS - 1 ≤ (MODULUS - 1) ^ 2 := Nat.le_self_pow (by decide) _
    omega
  obtain ⟨b1, hb1, hb1len, hb1mem, hb1desc⟩ := nttStage_eq (a.map (· % MODULUS)) n 2 1
    base (le_refl 1) rfl hdvd (by rw [List.length_map, hlen]) hbase hv1m
    (fun hc => absurd hc (by omega))
  obtain ⟨b2, hb2, hb2len, hb2mem, hb2desc⟩ := nttStage_eq a n 2 1 base (le_refl 1) rfl
    hdvd hlen hbase hv1 (fun hc => absurd hc (by omega))
  have hmap : ∀ j : Nat, (((a.map (· % MODULUS)).getD j 0 : Nat) : F) =
      ((a.getD j 0 : Nat) : F) := by
    intro j
    rcases Nat.lt_or_ge j a.length with hj | hj
    · have hjm : j < (a.map (· % MODULUS)).length := by rw [List.length_map]; exact hj
      have he : (a.map (· % MODULUS)).getD j 0 = a.getD j 0 % MODULUS := by
        rw [getD_of_lt hjm, getD_of_lt hj, List.getElem_map]
      rw [he, castF_mod]
    · rw [List.getD_eq_default _ _ (by rw [List.length_map]; exact hj),
        List.getD_eq_default _ _ hj]
  rw [hb1, hb2, Option.some_inj]
  apply List.ext_getElem (by omega)
  intro i hi1 hi2
  rw [← getD_of_lt hi1, ← getD_of_lt hi2, hb1desc i (by omega), hb2desc i (by omega)]
  by_cases hc : i % 2 < 1
  · rw [if_pos hc, if_pos hc, hmap i, hmap (i + 1)]
  · rw [if_neg hc, if_neg hc, hmap (i - 1), hmap i]

theorem ntt_map_mod (a : List Nat) (h n root : Nat) (hn : n = 2 ^ h)
    (h1 : 1 ≤ h) (hlen : a.length = n)
    (hvals : ∀ y ∈ a, y ≤ (MODULUS - 1) ^ 2) :
    ntt a n root = ntt (a.map (· % MODULUS)) n root := by
  subst hn
  rw [ntt_unfold, ntt_unfold, bitrevSwapPass_map]
  obtain ⟨a1, hpass, ha1len, ha1desc⟩ := bitrevSwapPass_eq h (2 ^ h) rfl a hlen
  rw [hpass]
  show nttLoops a1 (2 ^ h) (floorLog2 (2 ^ h)) root =
    nttLoops (a1.map (· % MODULUS)) (2 ^ h) (floorLog2 (2 ^ h)) root
  rw [floorLog2_two_pow]
  unfold nttLoops
  have hr : List.range h = 0 :: List.map Nat.succ (List.range (h - 1)) := by
    conv_lhs => rw [show h = (h - 1) + 1 by omega]
    rw [List.range_succ_eq_map]
  rw [hr, List.foldlM_cons, List.foldlM_cons, shift_pow_half, shift_pow_one]
  have h20 : (2 : Nat) ^ 0 = 1 := rfl
  have h21 : (2 : Nat) ^ (0 + 1) = 2 := rfl
  rw [h20, h21]
  have hdvd2 : 2 ∣ 2 ^ h := by
    refine ⟨2 ^ (h - 1), ?_⟩
    conv_lhs => rw [show h = (h - 1) + 1 by omega]
    ring
  have hv1a1 : ∀ x ∈ a1, x ≤ (MODULUS - 1) ^ 2 := by
    intro x hx
    obtain ⟨idx, hidx, hval⟩ := List.mem_iff_getElem.mp hx
    rw [← getD_of_lt hidx] at hval
    rw [← hval, ha1desc idx (by omega)]
    exact hvals _ (getD_mem (by rw [hlen]; exact revRec_lt h (2 ^ h) idx rfl (by omega)))
  rw [nttStage1_map_mod a1 (2 ^ h) _ hdvd2 ha1len
    (powerMod_lt _ _ MODULUS_two_le MODULUS_le) hv1a1]

/-- **C10**: Unreduced-input tolerance: for every power-of-two `n = 2^h` with
`h ≥ 1` and every input whose elements are each at most `(MODULUS-1)^2`,
`ntt` produces exactly the same output as `ntt` applied to the element-wise
reduction of the input mod `MODULUS` — no `u64` arithmetic wraps, and the
first butterfly stage (twiddle factor 1) reduces every element. This is what
lets the driver feed unreduced pointwise products directly into `intt`. -/
theorem c10_unreduced_tolerance (a : List Nat) (h n root : Nat) (hn : n = 2 ^ h)
    (h1 : 1 ≤ h) (hlen : a.length = n)
    (hvals : ∀ y ∈ a, y ≤ (MODULUS - 1) ^ 2) :
    ntt a n root = ntt (a.map (· % MODULUS)) n root :=
  ntt_map_mod a h n root hn h1 hlen hvals

theorem c10_unreduced_tolerance_witness :
    ntt [998244353, 2994733059, 998244355, 4] 4 3 =
      ntt ([998244353, 2994733059, 998244355, 4].map (· % MODULUS)) 4 3 :=
  c10_unreduced_tolerance [998244353, 2994733059, 998244355, 4] 2 4 3 (by decide)
    (by decide) (by decide) (by decide)

/-! ### The convolution driver (C2) -/

theorem ntt_singleton (x root : Nat) : ntt [x] 1 root = some [x] := by
  rw [ntt_unfold]
  obtain ⟨b, hb, hblen, hbdesc⟩ := bitrevSwapPass_eq 0 1 (by norm_num) [x] rfl
  have hbeq : b = [x] := by
    apply List.ext_getElem (by simpa using hblen)
    intro i h1 h2
    have hi0 : i = 0 := by
      simp at h2
      omega
    subst hi0
    rw [← getD_of_lt h1, ← getD_of_lt h2, hbdesc 0 (by norm_num)]
    rfl
  rw [hb, hbeq]
  show nttLoops [x] 1 (floorLog2 1) root = some [x]
  rfl

theorem intt_map_mod (res : List Nat) (h n root : Nat) (hn : n = 2 ^ h)
    (hlen : res.length = n) (hv : ∀ y ∈ res, y ≤ (MODULUS - 1) ^ 2) :
    intt res n root = intt (res.map (· % MODULUS)) n root := by
  rcases Nat.eq_zero_or_pos h with h0 | h1
  · subst h0
    have hn1 : n = 1 := by simpa using hn
    subst hn1
    obtain ⟨v, rfl⟩ := List.length_eq_one.mp hlen
    have hvb : v ≤ (MODULUS - 1) ^ 2 := hv v (by simp)
    rw [intt_eq, intt_eq]
    rw [show (([v].map (· % MODULUS)) : List Nat) = [v % MODULUS] from rfl]
    rw [ntt_singleton v (powerMod root (MODULUS - 2) MODULUS),
      ntt_singleton (v % MODULUS) (powerMod root (MODULUS - 2) MODULUS)]
    show some [mul64 v (powerMod 1 (MODULUS - 2) MODULUS) % MODULUS] =
      some [mul64 (v % MODULUS) (powerMod 1 (MODULUS - 2) MODULUS) % MODULUS]
    have hN : powerMod 1 (MODULUS - 2) MODULUS = 1 := by decide
    have hm1 : mul64 v 1 = v := by
      unfold mul64
      rw [mul_one]
      exact Nat.mod_eq_of_lt (lt_of_le_of_lt hvb sq_bound)
    have hmodlt : v % MODULUS < MODULUS := Nat.mod_lt _ (by decide)
    have hm2 : mul64 (v % MODULUS) 1 = v % MODULUS := by
      unfold mul64
      rw [mul_one]
      have h64 : MODULUS < U64SIZE := by decide
      exact Nat.mod_eq_of_lt (by omega)
    rw [hN, hm1, hm2, Nat.mod_mod_of_dvd v (dvd_refl MODULUS)]
  · rw [intt_eq, intt_eq, ntt_map_mod res h n _ hn h1 hlen hv]

theorem pointwise_fold (fa fb : List Nat) :
    ∀ t, t ≤ fa.length → t ≤ fb.length →
      ∃ res, (List.range t).foldlM (pointwiseStep fa fb) ([] : List Nat) = some res ∧
        res.length = t ∧
        ∀ i, i < t → res.getD i 0 = mul64 (fa.getD i 0) (fb.getD i 0) := by
  intro t
  induction t with
  | zero => exact fun _ _ => ⟨[], rfl, rfl, by omega⟩
  | succ t ih =>
    intro h1 h2
    obtain ⟨res, hres, hlen, hdesc⟩ := ih (by omega) (by omega)
    refine ⟨res ++ [mul64 (fa.getD t 0) (fb.getD t 0)], ?_, ?_, ?_⟩
    · rw [List.range_succ, List.foldlM_append, hres]
      simp only [Option.bind_eq_bind, Option.some_bind, List.foldlM_cons, List.foldlM_nil]
      unfold pointwiseStep
      rw [getElem?_of_lt (by omega), getElem?_of_lt (by omega)]
      rfl
    · simp [hlen]
    · intro i hi
      rcases Nat.lt_or_ge i t with hit | hit
      · rw [List.getD_append _ _ _ _ (by omega), hdesc i hit]
      · have hieq : i = t := by omega
        subst hieq
        rw [List.getD_append_right _ _ _ _ (by omega), hlen]
        simp

theorem dft_mul_conv (a b : List Nat) (n : Nat) (hla : a.length = n) (hlb : b.length = n)
    (hconv : ∀ k, n ≤ k → convCoeff a b k = 0) (ω : F) (i : Nat) :
    dftF n ω (fun t => ((a.getD t 0 : Nat) : F)) i *
      dftF n ω (fun t => ((b.getD t 0 : Nat) : F)) i =
    dftF n ω (fun t => ((convCoeff a b t : Nat) : F)) i := by
  have heval : ∀ v : Nat → F,
      (∑ j ∈ Finset.range n, Polynomial.C (v j) * Polynomial.X ^ j).eval (ω ^ i) =
        dftF n ω v i := by
    intro v
    rw [Polynomial.eval_finset_sum]
    unfold dftF
    apply Finset.sum_congr rfl
    intro j _
    rw [Polynomial.eval_mul, Polynomial.eval_C, Polynomial.eval_pow, Polynomial.eval_X,
      pow_mul]
  have hcoeff : ∀ v : Nat → F, (∀ t, n ≤ t → v t = 0) → ∀ k,
      (∑ j ∈ Finset.range n, Polynomial.C (v j) * Polynomial.X ^ j).coeff k = v k := by
    intro v hv k
    rw [Polynomial.finset_sum_coeff]
    have hterm : ∀ j ∈ Finset.range n,
        (Polynomial.C (v j) * Polynomial.X ^ j).coeff k =
          if j = k then v j else 0 := by
      intro j _
      rw [Polynomial.coeff_C_mul, Polynomial.coeff_X_pow]
      by_cases hjk : k = j
      · rw [if_pos hjk, if_pos hjk.symm, mul_one]
      · rw [if_neg hjk, if_neg (fun hc => hjk hc.symm), mul_zero]
    rw [Finset.sum_congr rfl hterm, Finset.sum_ite_eq']
    by_cases hk : k ∈ Finset.range n
    · rw [if_pos hk]
    · rw [if_neg hk]
      exact (hv k (by simpa using hk)).symm
  have hvA : ∀ t, n ≤ t → ((a.getD t 0 : Nat) : F) = 0 := by
    intro t ht
    rw [List.getD_eq_default _ _ (by omega)]
    exact Nat.cast_zero
  have hvB : ∀ t, n ≤ t → ((b.getD t 0 : Nat) : F) = 0 := by
    intro t ht
    rw [List.getD_eq_default _ _ (by omega)]
    exact Nat.cast_zero
  have hvC : ∀ t, n ≤ t → ((convCoeff a b t : Nat) : F) = 0 := by
    intro t ht
    rw [hconv t ht]
    exact Nat.cast_zero
  have hPQ : (∑ j ∈ Finset.range n,
        Polynomial.C ((a.getD j 0 : Nat) : F) * Polynomial.X ^ j) *
      (∑ j ∈ Finset.range n,
        Polynomial.C ((b.getD j 0 : Nat) : F) * Polynomial.X ^ j) =
      ∑ j ∈ Finset.range n,
        Polynomial.C ((convCoeff a b j : Nat) : F) * Polynomial.X ^ j := by
    apply Polynomial.ext
    intro k
    rw [Polynomial.coeff_mul, hcoeff _ hvC k,
      Finset.Nat.sum_antidiagonal_eq_sum_range_succ_mk]
    have hterms : ∀ j ∈ Finset.range (k + 1),
        (∑ l ∈ Finset.range n,
            Polynomial.C ((a.getD l 0 : Nat) : F) * Polynomial.X ^ l).coeff j *
          (∑ l ∈ Finset.range n,
            Polynomial.C ((b.getD l 0 : Nat) : F) * Polynomial.X ^ l).coeff (k - j) =
        ((a.getD j 0 * b.getD (k - j) 0 : Nat) : F) := by
      intro j _
      rw [hcoeff _ hvA j, hcoeff _ hvB (k - j), Nat.cast_mul]
    rw [Finset.sum_congr rfl hterms]
    unfold convCoeff
    rw [Nat.cast_sum]
  rw [← heval (fun t => ((a.getD t 0 : Nat) : F)),
    ← heval (fun t => ((b.getD t 0 : Nat) : F)),
    ← heval (fun t => ((convCoeff a b t : Nat) : F)),
    ← Polynomial.eval_mul, hPQ]

/-- **C2**: Convolution correctness: for all sequences `a`, `b` of equal
power-of-two length `n = 2^h` (`h ≤ 23`, so `n` divides `MODULUS - 1`) with
elements reduced mod `MODULUS` and whose true (schoolbook) convolution has
length at most `n` (coefficients `≥ n` are zero), forward-transforming both
with `ntt`, forming the pointwise product at each index, and applying `intt`
yields exactly the schoolbook convolution of `a` and `b`, each coefficient
fully reduced mod `MODULUS`. -/
theorem c2_convolution (a b : List Nat) (h n : Nat) (hn : n = 2 ^ h) (hh : h ≤ 23)
    (hla : a.length = n) (hlb : b.length = n)
    (hva : ∀ y ∈ a, y < MODULUS) (hvb : ∀ y ∈ b, y < MODULUS)
    (hconv : ∀ k, n ≤ k → convCoeff a b k = 0) :
    convolveViaNtt a b n =
      some ((List.range n).map (fun k => convCoeff a b k % MODULUS)) := by
  subst hn
  obtain ⟨fa, hfa, hfalen, hfavals, hfadesc⟩ :=
    ntt_dft h hh PRIMITIVE_ROOT HR_three a hla hva
  obtain ⟨fb, hfb, hfblen, hfbvals, hfbdesc⟩ :=
    ntt_dft h hh PRIMITIVE_ROOT HR_three b hlb hvb
  obtain ⟨res, hres, hreslen, hresdesc⟩ :=
    pointwise_fold fa fb (2 ^ h) (by omega) (by omega)
  unfold convolveViaNtt
  rw [hfa]
  simp only [Option.bind_eq_bind, Option.some_bind]
  rw [hfb]
  simp only [Option.some_bind]
  rw [hres]
  simp only [Option.some_bind]
  have hmul : ∀ i, i < 2 ^ h → res.getD i 0 = fa.getD i 0 * fb.getD i 0 := by
    intro i hi
    rw [hresdesc i hi]
    apply mul64_eq
    have h1 : fa.getD i 0 < MODULUS := hfavals _ (getD_mem (by omega))
    have h2 : fb.getD i 0 < MODULUS := hfbvals _ (getD_mem (by omega))
    calc fa.getD i 0 * fb.getD i 0 ≤ (MODULUS - 1) * (MODULUS - 1) :=
        Nat.mul_le_mul (by omega) (by omega)
      _ < U64SIZE := by decide
  have hresv : ∀ y ∈ res, y ≤ (MODULUS - 1) ^ 2 := by
    intro y hy
    obtain ⟨idx, hidx, hval⟩ := List.mem_iff_getElem.mp hy
    rw [← getD_of_lt hidx] at hval
    rw [← hval, hmul idx (by omega)]
    have h1 : fa.getD idx 0 < MODULUS := hfavals _ (getD_mem (by omega))
    have h2 : fb.getD idx 0 < MODULUS := hfbvals _ (getD_mem (by omega))
    rw [pow_two]
    exact Nat.mul_le_mul (by omega) (by omega)
  rw [intt_map_mod res h (2 ^ h) PRIMITIVE_ROOT rfl hreslen hresv]
  have hmaplen : (res.map (· % MODULUS)).length = 2 ^ h := by
    rw [List.length_map, hreslen]
  have hmapvals : ∀ y ∈ res.map (· % MODULUS), y < MODULUS := by
    intro y hy
    obtain ⟨x, hx, hxy⟩ := List.mem_map.mp hy
    rw [← hxy]
    exact Nat.mod_lt _ (by decide)
  have hmapdesc : ∀ i, i < 2 ^ h → (res.map (· % MODULUS)).getD i 0 =
      (dftF (2 ^ h) (((PRIMITIVE_ROOT : Nat) : F) ^ ((MODULUS - 1) / 2 ^ h))
        (fun t => ((convCoeff a b t : Nat) : F)) i).val := by
    intro i hi
    have hilt : i < (res.map (· % MODULUS)).length := by omega
    rw [getD_of_lt hilt, List.getElem_map, ← getD_of_lt (show i < res.length by omega)]
    rw [hmul i hi, mod_eq_val, Nat.cast_mul, hfadesc i hi, hfbdesc i hi,
      castF_val, castF_val,
      dft_mul_conv a b (2 ^ h) hla hlb hconv
        (((PRIMITIVE_ROOT : Nat) : F) ^ ((MODULUS - 1) / 2 ^ h)) i]
  obtain ⟨d, hd, hdlen, hddesc⟩ := intt_of_dft h hh (res.map (· % MODULUS))
    (fun t => ((convCoeff a b t : Nat) : F)) hmaplen hmapvals hmapdesc
  rw [hd, Option.some_inj]
  apply List.ext_getElem (by simp [hdlen])
  intro i h1 h2
  rw [← getD_of_lt h1, hddesc i (by omega), List.getElem_map, List.getElem_range]
  exact (mod_eq_val _).symm

theorem c2_convolution_witness :
    convolveViaNtt [5, 0] [7, 0] 2 =
      some ((List.range 2).map (fun k => convCoeff [5, 0] [7, 0] k % MODULUS)) :=
  c2_convolution [5, 0] [7, 0] 1 2 (by decide) (by decide) (by decide) (by decide)
    (by decide) (by decide)
    (fun k hk => by
      unfold convCoeff
      apply Finset.sum_eq_zero
      intro j hj
      match j with
      | 0 =>
        rw [List.getD_eq_default _ _
          (show ([7, 0] : List Nat).length ≤ k - 0 by simp; omega)]
        exact mul_zero _
      | 1 =>
        rw [show ([5, 0] : List Nat).getD 1 0 = 0 from rfl]
        exact zero_mul _
      | (j + 2) =>
        rw [List.getD_eq_default _ _
          (show ([5, 0] : List Nat).length ≤ j + 2 by simp)]
        exact zero_mul _)
